import Mathlib

/-!
# Checkers board model: geometry, move tables and the board text format

A shallow embedding of `checkers/checkers_studying.go`.

Modelling conventions.

* A Go `string` is a Lean `String` (`GoString`), i.e. valid UTF-8 text; `len` is the
  UTF-8 byte size, as in Go.
* A Go `map[K]V` is an association list with unique keys in insertion order
  (`GoMap K V`).  Indexing a missing key yields `none`; where the source reads the
  zero value of a missing key the model says so with `Option.getD`.
* A `for` loop with an early `return` is a recursion over the ranged slice that
  threads the loop index; a loop without one is a fold.
* `for pos := range Usable` visits the keys in an order Go leaves unspecified; the
  table builder therefore takes the visiting order as an argument.
-/

set_option autoImplicit false

namespace Checkers

/-- The Go `string` type. -/
abbrev GoString := String

/-- The Go `map[K]V` type: an association list, keys unique, in insertion order. -/
abbrev GoMap (K V : Type) := List (K × V)

namespace GoMap

variable {K V : Type} [DecidableEq K]

/-- The comma-ok lookup `v, ok := m[k]`. -/
def get? : GoMap K V → K → Option V
  | [], _ => none
  | (k', v) :: m, k => if k' = k then some v else get? m k

/-- The assignment `m[k] = v`. -/
def set : GoMap K V → K → V → GoMap K V
  | [], k, v => [(k, v)]
  | (k', v') :: m, k, v => if k' = k then (k, v) :: m else (k', v') :: set m k v

/-- The keys of a map, in insertion order. -/
def keys (m : GoMap K V) : List K := m.map Prod.fst

end GoMap

/-! ## Constants and types -/

def BOARD_DIM : Nat := 8

def RED : GoString := "red"

def BLACK : GoString := "black"

/-- The row separator, a one-character string in the source. -/
def ROW_SEP : Char := '|'

structure Player where
  Color : GoString
deriving DecidableEq, Repr

structure Piece where
  Player : Player
  King : Bool
deriving DecidableEq, Repr

structure Pos where
  X : Int
  Y : Int
deriving DecidableEq, Repr

def NO_POS : Pos := ⟨-1, -1⟩

def BLACK_PLAYER : Player := ⟨BLACK⟩

def RED_PLAYER : Player := ⟨RED⟩

def NO_PLAYER : Player := ⟨"NO_PLAYER"⟩

def PieceStrings : GoMap Player GoString :=
  [(RED_PLAYER, "r"), (BLACK_PLAYER, "b"), (NO_PLAYER, "*")]

def NO_PIECE : Piece := ⟨NO_PLAYER, false⟩

def StringPieces : GoMap GoString Piece :=
  [("r", ⟨RED_PLAYER, false⟩), ("b", ⟨BLACK_PLAYER, false⟩),
   ("R", ⟨RED_PLAYER, true⟩), ("B", ⟨BLACK_PLAYER, true⟩), ("*", NO_PIECE)]

def Players : GoMap GoString Player :=
  [(RED, RED_PLAYER), (BLACK, BLACK_PLAYER)]

def Opponents : GoMap Player Player :=
  [(BLACK_PLAYER, RED_PLAYER), (RED_PLAYER, BLACK_PLAYER)]

structure Game where
  Pieces : GoMap Pos Piece
  Turn : Player
deriving DecidableEq, Repr

/-! ## Library functions used by the source -/

/-- Go `len(s)`: the number of bytes of `s`. -/
def len (s : GoString) : Nat := s.utf8ByteSize

/-- Go `strings.Split(s, sep)` for a one-character separator, on the characters of `s`:
`n` separators give `n + 1` pieces, and the empty string gives one empty piece. -/
def Split : List Char → Char → List (List Char)
  | [], _ => [[]]
  | c :: cs, sep =>
    if c = sep then [] :: Split cs sep
    else match Split cs sep with
      | [] => [[c]]
      | r :: rs => (c :: r) :: rs

/-- Go `strings.Split(row, "")`: one string per character of `row`. -/
def explode (row : List Char) : List GoString := row.map String.singleton

/-- Go `strings.ToUpper`, on the ASCII letters; the source applies it to values of
`PieceStrings` only. -/
def ToUpper (s : GoString) : GoString := String.mk (s.data.map Char.toUpper)

/-! ## Helpers that the excerpted source calls but does not contain -/

/-- Modelled from the spec: `PieceAt` is not part of the source file; section 4.6
describes it as a pure membership test on the sparse piece map. -/
def Game.PieceAt (game : Game) (pos : Pos) : Bool := (game.Pieces.get? pos).isSome

/-- Modelled from the spec: `ParsePiece` is not part of the source file; sections 4.3
and 4.5 describe it as decoding through `StringPieces`, failing on every string that
is not one of the five symbols. -/
def ParsePiece (c : GoString) : Option Piece := StringPieces.get? c

/-- Modelled from the spec: `Capture` is not part of the source file; section 9
gives its contract as the midpoint square between the two endpoints of a jump. -/
def Capture (a b : Pos) : Pos := ⟨(a.X + b.X).tdiv 2, (a.Y + b.Y).tdiv 2⟩

/-! ## Serialization -/

/-- The string written for column `x` of row `y`: the body of the inner loop of
`String`. -/
def Game.cell (game : Game) (x y : Nat) : GoString :=
  let pos : Pos := ⟨x, y⟩
  if game.PieceAt pos then
    let piece := (game.Pieces.get? pos).getD ⟨⟨""⟩, false⟩
    let val := (PieceStrings.get? piece.Player).getD ""
    if piece.King then ToUpper val else val
  else
    (PieceStrings.get? NO_PLAYER).getD ""

/-- The method `(game *Game) String()`. -/
def Game.String (game : Game) : GoString :=
  (List.range BOARD_DIM).foldl
    (fun buf y =>
      let buf := (List.range BOARD_DIM).foldl (fun buf x => buf ++ game.cell x y) buf
      if y < BOARD_DIM - 1 then buf ++ String.singleton ROW_SEP else buf)
    ""

/-! ## Parsing -/

/-- The three `errors.New` sites of `Parse`. -/
inductive ParseError where
  | invalidBoardString (s : GoString)
  | outOfBounds (x y : Nat)
  | invalidPiece (x y : Nat)
deriving DecidableEq, Repr

deriving instance DecidableEq for Except

/-- The inner loop of `Parse` over the characters of row `y`, from column `x` on. -/
def parseCells (y : Nat) : Nat → List GoString → GoMap Pos Piece →
    Except ParseError (GoMap Pos Piece)
  | _, [], pieces => .ok pieces
  | x, c :: cs, pieces =>
    if x ≥ BOARD_DIM ∨ y ≥ BOARD_DIM then .error (.outOfBounds x y)
    else match ParsePiece c with
      | none => .error (.invalidPiece x y)
      | some piece =>
        if piece ≠ NO_PIECE then parseCells y (x + 1) cs (pieces.set ⟨x, y⟩ piece)
        else parseCells y (x + 1) cs pieces

/-- The outer loop of `Parse` over the rows, from row `y` on. -/
def parseRows : Nat → List (List Char) → GoMap Pos Piece →
    Except ParseError (GoMap Pos Piece)
  | _, [], pieces => .ok pieces
  | y, row :: rows, pieces =>
    match parseCells y 0 (explode row) pieces with
    | .error e => .error e
    | .ok pieces' => parseRows (y + 1) rows pieces'

/-- The function `Parse`. -/
def Parse (s : GoString) : Except ParseError Game :=
  if len s ≠ BOARD_DIM * BOARD_DIM + (BOARD_DIM - 1) then .error (.invalidBoardString s)
  else match parseRows 0 (Split s.data ROW_SEP) [] with
    | .error e => .error e
    | .ok pieces => .ok ⟨pieces, BLACK_PLAYER⟩

/-! ## Geometry and the move and jump tables: `init` -/

namespace GoMap

variable {K1 K2 K3 V : Type} [DecidableEq K1] [DecidableEq K2] [DecidableEq K3]

/-- The assignment `m[k1][k2] = v` on a map of maps: Go panics when `m[k1]` is nil. -/
def set2 (m : GoMap K1 (GoMap K2 V)) (k1 : K1) (k2 : K2) (v : V) :
    Option (GoMap K1 (GoMap K2 V)) :=
  match m.get? k1 with
  | none => none
  | some inner => some (m.set k1 (inner.set k2 v))

/-- The assignment `m[k1][k2][k3] = v`: Go panics when `m[k1][k2]` is nil. -/
def set3 (m : GoMap K1 (GoMap K2 (GoMap K3 V))) (k1 : K1) (k2 : K2) (k3 : K3) (v : V) :
    Option (GoMap K1 (GoMap K2 (GoMap K3 V))) :=
  match m.get? k1 with
  | none => none
  | some inner =>
    match set2 inner k2 k3 v with
    | none => none
    | some inner' => some (m.set k1 inner')

end GoMap

/-- The inner loop of the first loop of `init`, `for x := ...; x < BOARD_DIM; x += 2`,
with the number of iterations bounded by `fuel`. -/
def usableRow (y : Nat) : Nat → Nat → GoMap Pos Bool → GoMap Pos Bool
  | 0, _, usable => usable
  | fuel + 1, x, usable =>
    if x < BOARD_DIM then usableRow y fuel (x + 2) (usable.set ⟨x, y⟩ true) else usable

/-- The package variable `Usable` after the first loop of `init`. -/
def Usable : GoMap Pos Bool :=
  (List.range BOARD_DIM).foldl (fun usable y => usableRow y BOARD_DIM ((y + 1) % 2) usable) []

/-- The read `Usable[pos]`, false for a missing key. -/
def isUsable (pos : Pos) : Bool := (Usable.get? pos).getD false

/-- The package variables `Moves`, `Jumps`, `KingMoves` and `KingJumps`. -/
structure Tables where
  Moves : GoMap Player (GoMap Pos (GoMap Pos Bool))
  Jumps : GoMap Player (GoMap Pos (GoMap Pos Pos))
  KingMoves : GoMap Pos (GoMap Pos Bool)
  KingJumps : GoMap Pos (GoMap Pos Pos)
deriving DecidableEq, Repr

/-- The tables as declared: all empty. -/
def Tables.declared : Tables := ⟨[], [], [], []⟩

/-- The second loop of `init`, `for _, p := range Players`, visiting the players in the
given order. -/
def initPlayers (players : List Player) (t : Tables) : Tables :=
  players.foldl (fun t p => { t with Moves := t.Moves.set p [], Jumps := t.Jumps.set p [] }) t

def directions : List Int := [1, -1]

/-- The body of the innermost loop of `init`, for one `direction`; `forward` is
`directions[i]`. -/
def initDirection (player : Player) (forward : Int) (pos : Pos) (t : Tables)
    (direction : Int) : Option Tables := do
  let movOff : Int := 1
  let jmpOff : Int := 2
  let mov : Pos := ⟨pos.X + movOff * direction, pos.Y + movOff * forward⟩
  let t ←
    if isUsable mov then do
      let moves ← t.Moves.set3 player pos mov true
      let kingMoves ← t.KingMoves.set2 pos mov true
      pure { t with Moves := moves, KingMoves := kingMoves }
    else pure t
  let jmp : Pos := ⟨pos.X + jmpOff * direction, pos.Y + jmpOff * forward⟩
  if isUsable jmp then do
    let capturePos := Capture pos jmp
    let jumps ← t.Jumps.set3 player pos jmp capturePos
    let kingJumps ← t.KingJumps.set2 pos jmp capturePos
    pure { t with Jumps := jumps, KingJumps := kingJumps }
  else pure t

/-- The body of the loop over `[]Player{BLACK_PLAYER, RED_PLAYER}`, for the `i`-th
player. -/
def initPlayer (pos : Pos) (t : Tables) (ip : Nat × Player) : Option Tables := do
  let forward ← directions[ip.1]?
  let moves ← t.Moves.set2 ip.2 pos []
  let jumps ← t.Jumps.set2 ip.2 pos []
  directions.foldlM (initDirection ip.2 forward pos) { t with Moves := moves, Jumps := jumps }

/-- The body of the third loop of `init`, `for pos := range Usable`. -/
def initPos (t : Tables) (pos : Pos) : Option Tables :=
  [BLACK_PLAYER, RED_PLAYER].enum.foldlM (initPlayer pos)
    { t with KingMoves := t.KingMoves.set pos [], KingJumps := t.KingJumps.set pos [] }

/-- The function `init` after its first loop: the tables it builds when the two `range`
loops over maps visit `players` and `order`; `none` if an assignment panics. -/
def init (players : List Player) (order : List Pos) : Option Tables :=
  order.foldlM initPos (initPlayers players Tables.declared)

/-- The reads `Moves[p][pos]`, as the inner map if there is one. -/
def Tables.movesAt (t : Tables) (p : Player) (pos : Pos) : Option (GoMap Pos Bool) :=
  (t.Moves.get? p).bind (fun m => m.get? pos)

/-- The reads `Jumps[p][pos]`, as the inner map if there is one. -/
def Tables.jumpsAt (t : Tables) (p : Player) (pos : Pos) : Option (GoMap Pos Pos) :=
  (t.Jumps.get? p).bind (fun m => m.get? pos)

/-- The entry of `Moves[p][pos]` for `dest`, if any. -/
def Tables.move (t : Tables) (p : Player) (pos dest : Pos) : Option Bool :=
  (t.movesAt p pos).bind (fun m => m.get? dest)

/-- The entry of `Jumps[p][pos]` for `dest`, if any: the captured position. -/
def Tables.jump (t : Tables) (p : Player) (pos dest : Pos) : Option Pos :=
  (t.jumpsAt p pos).bind (fun m => m.get? dest)

/-- The entry of `KingMoves[pos]` for `dest`, if any. -/
def Tables.kingMove (t : Tables) (pos dest : Pos) : Option Bool :=
  (t.KingMoves.get? pos).bind (fun m => m.get? dest)

/-- The entry of `KingJumps[pos]` for `dest`, if any. -/
def Tables.kingJump (t : Tables) (pos dest : Pos) : Option Pos :=
  (t.KingJumps.get? pos).bind (fun m => m.get? dest)

/-- The assignment `m[k] = v` guarded by `if Usable[k]`. -/
def setIfUsable {V : Type} (m : GoMap Pos V) (k : Pos) (v : V) : GoMap Pos V :=
  if isUsable k then m.set k v else m

/-- What the two directions add to a map of moves from `pos`, for row step `forward`. -/
def addMoves (forward : Int) (pos : Pos) (m : GoMap Pos Bool) : GoMap Pos Bool :=
  setIfUsable (setIfUsable m ⟨pos.X + 1, pos.Y + forward⟩ true)
    ⟨pos.X + -1, pos.Y + forward⟩ true

/-- What the two directions add to a map of jumps from `pos`, for row step `forward`. -/
def addJumps (forward : Int) (pos : Pos) (m : GoMap Pos Pos) : GoMap Pos Pos :=
  setIfUsable
    (setIfUsable m ⟨pos.X + 2, pos.Y + 2 * forward⟩
      (Capture pos ⟨pos.X + 2, pos.Y + 2 * forward⟩))
    ⟨pos.X + -2, pos.Y + 2 * forward⟩ (Capture pos ⟨pos.X + -2, pos.Y + 2 * forward⟩)

/-! ## The board text format, as the specification words it -/

/-- The five symbols of the board text format. -/
def Symbols : List Char := ['r', 'b', 'R', 'B', '*']

/-- Rows joined by the row separator, none after the last row. -/
def joinRows : List (List Char) → List Char
  | [] => []
  | [row] => row
  | row :: rows => row ++ ROW_SEP :: joinRows rows

/-- A well-formed board string: exactly 8 rows of exactly 8 symbols, joined by the row
separator. -/
def WellFormed (s : GoString) : Prop :=
  ∃ rows : List (List Char), rows.length = 8 ∧
    (∀ r ∈ rows, r.length = 8 ∧ ∀ c ∈ r, c ∈ Symbols) ∧ s.data = joinRows rows

/-- The piece map entry that the symbol `c` gives rise to: none for the empty square. -/
def entryOf (c : Char) : Option Piece :=
  if c = '*' then none else StringPieces.get? (String.singleton c)

/-- The entry that a row starting at column `x` holds for column `X`. -/
def rowEntry : List Char → Nat → Int → Option Piece
  | [], _, _ => none
  | c :: cs, x, X => if X = x then entryOf c else rowEntry cs (x + 1) X

/-- The entry that a list of rows starting at row `y` holds for position `pos`. -/
def gridEntry : List (List Char) → Nat → Pos → Option Piece
  | [], _, _ => none
  | r :: rs, y, pos => if pos.Y = y then rowEntry r 0 pos.X else gridEntry rs (y + 1) pos

/-- The characters that `String` writes for row `y`. -/
def Game.rowChars (game : Game) (y : Nat) : List Char :=
  (List.range BOARD_DIM).flatMap (fun x => (game.cell x y).data)

/-- The symbol of a piece map entry: what `String` is to write for it when the owner is
one of the three players of `PieceStrings`. -/
def cellChar (e : Option Piece) : Char :=
  match e with
  | none => '*'
  | some p =>
    if p.Player = RED_PLAYER then (if p.King then 'R' else 'r')
    else if p.Player = BLACK_PLAYER then (if p.King then 'B' else 'b')
    else '*'

/-- The owner of the piece stored at `(x, y)`, if any, is a key of `PieceStrings`. -/
def KnownOwnerAt (g : Game) (x y : Nat) : Prop :=
  ∀ p, g.Pieces.get? ⟨x, y⟩ = some p →
    p.Player = RED_PLAYER ∨ p.Player = BLACK_PLAYER ∨ p.Player = NO_PLAYER

/-- The grid of symbols of a game. -/
def Game.grid (g : Game) : List (List Char) :=
  (List.range 8).map (fun y : Nat => (List.range 8).map (fun x : Nat => cellChar (g.Pieces.get? ⟨x, y⟩)))

/-! ## Concrete boards -/

def kingBoard : GoString :=
  "********|********|********|**R*****|********|********|********|********"

def kingRows : List (List Char) :=
  ["********".data, "********".data, "********".data, "**R*****".data,
   "********".data, "********".data, "********".data, "********".data]

def emptyBoard : GoString :=
  "********|********|********|********|********|********|********|********"

/-- Seventy-one row separators: 72 empty rows. -/
def pipes71 : GoString := String.mk (List.replicate 71 ROW_SEP)

/-- Seven full rows, a row of seven symbols and a trailing separator: nine rows, the last
one empty. -/
def shortRowBoard : GoString :=
  "********|********|********|**R*****|********|********|********|*******|"

def seventyStars : GoString := String.mk (List.replicate 70 '*')

def qBoard : GoString :=
  "********|********|********|**q*****|********|********|********|********"

/-- A game with a red king at `(2, 3)`, a black man at `(1, 0)` and nothing else. -/
def twoPieceGame : Game :=
  ⟨[(⟨2, 3⟩, ⟨RED_PLAYER, true⟩), (⟨1, 0⟩, ⟨BLACK_PLAYER, false⟩)], RED_PLAYER⟩

/-- A game whose only piece, at `(0, 0)`, is owned by a player that is not a key of
`PieceStrings`. -/
def greenGame : Game := ⟨[(⟨0, 0⟩, ⟨⟨"green"⟩, false⟩)], BLACK_PLAYER⟩

/-- A game with the empty piece stored as a king at `(0, 0)` and a red man off the board. -/
def sentinelGame : Game :=
  ⟨[(⟨0, 0⟩, ⟨NO_PLAYER, true⟩), (⟨9, -1⟩, ⟨RED_PLAYER, false⟩)], NO_PLAYER⟩

/-- A one-square diagonal step from `pos` to `dest` onto a usable square, with row
step `forward`. -/
abbrev IsStep (forward : Int) (pos dest : Pos) : Prop :=
  isUsable dest = true ∧ |dest.X - pos.X| = 1 ∧ dest.Y - pos.Y = forward

/-- A two-square diagonal leap from `pos` to `dest` onto a usable square, with row
step `forward`. -/
abbrev IsLeap (forward : Int) (pos dest : Pos) : Prop :=
  isUsable dest = true ∧ |dest.X - pos.X| = 2 ∧ dest.Y - pos.Y = 2 * forward

/-- The half turn of the board about its centre. -/
def rot (p : Pos) : Pos := ⟨7 - p.X, 7 - p.Y⟩

/-- The symbol that `String` writes for a stored piece: `PieceStrings` of the owner,
upper-cased when `King` is set. -/
def encodePiece (piece : Piece) : GoString :=
  let val := (PieceStrings.get? piece.Player).getD ""
  if piece.King then ToUpper val else val

/-- The five pieces of the symbol encoding. -/
def fivePieces : List Piece :=
  [⟨RED_PLAYER, false⟩, ⟨BLACK_PLAYER, false⟩, ⟨RED_PLAYER, true⟩, ⟨BLACK_PLAYER, true⟩,
   NO_PIECE]

/-- The five symbols of the board text format, as strings. -/
def fiveSymbols : List GoString := ["r", "b", "R", "B", "*"]

/-- Seventy-one empty-square symbols and no separator: one row of 71 characters. -/
def stars71 : GoString := String.mk (List.replicate 71 '*')

/-- Eight row separators followed by 63 empty-square symbols: eight empty rows and a
ninth row of 63 characters. -/
def lateRowBoard : GoString := String.mk (List.replicate 8 ROW_SEP ++ List.replicate 63 '*')

/-- A well-formed board with a red man on the light square `(0, 0)`. -/
def lightSquareBoard : GoString :=
  "r*******|********|********|********|********|********|********|********"

/-! ## Lemmas on maps and on splitting -/

namespace GoMap
variable {K V : Type} [DecidableEq K]

theorem get?_nil (k : K) : get? ([] : GoMap K V) k = none := rfl

theorem get?_set (m : GoMap K V) (k k' : K) (v : V) :
    get? (set m k v) k' = if k = k' then some v else get? m k' := by
  induction m with
  | nil => simp [set, get?]
  | cons e m ih =>
    obtain ⟨a, b⟩ := e
    by_cases h : a = k
    · subst h
      by_cases h' : a = k' <;> simp [set, get?, h']
    · by_cases h' : a = k'
      · subst h'; simp [set, get?, h, Ne.symm h]
      · simp [set, get?, h, h', ih]

end GoMap

theorem singleton_eq_iff (c d : Char) : String.singleton c = String.singleton d ↔ c = d := by
  constructor
  · intro h
    have := congrArg String.data h
    simpa using this
  · rintro rfl; rfl

theorem ParsePiece_singleton_none (c : Char) (h : c ∉ Symbols) :
    ParsePiece (String.singleton c) = none := by
  simp [Symbols] at h
  obtain ⟨h1, h2, h3, h4, h5⟩ := h
  have e1 : ("r" : String) = String.singleton 'r' := rfl
  have e2 : ("b" : String) = String.singleton 'b' := rfl
  have e3 : ("R" : String) = String.singleton 'R' := rfl
  have e4 : ("B" : String) = String.singleton 'B' := rfl
  have e5 : ("*" : String) = String.singleton '*' := rfl
  simp only [ParsePiece, StringPieces, GoMap.get?, e1, e2, e3, e4, e5, singleton_eq_iff]
  simp [Ne.symm h1, Ne.symm h2, Ne.symm h3, Ne.symm h4, Ne.symm h5]

theorem mem_Split (s : List Char) (sep c : Char) (hc : c ∈ s) (hsep : c ≠ sep) :
    ∃ row ∈ Split s sep, c ∈ row := by
  induction s with
  | nil => simp at hc
  | cons d s ih =>
    by_cases hd : d = sep
    · have hcs : c ∈ s := by
        rcases List.mem_cons.mp hc with h | h
        · exact absurd (h.trans hd) hsep
        · exact h
      obtain ⟨row, hrow, hmem⟩ := ih hcs
      exact ⟨row, by simp [Split, hd, hrow], hmem⟩
    · rcases List.mem_cons.mp hc with h | h
      · cases hS : Split s sep with
        | nil => exact ⟨[d], by simp [Split, hd, hS], by simp [h]⟩
        | cons r rs => exact ⟨d :: r, by simp [Split, hd, hS], by simp [h]⟩
      · obtain ⟨row, hrow, hmem⟩ := ih h
        cases hS : Split s sep with
        | nil => simp [hS] at hrow
        | cons r rs =>
          rw [hS] at hrow
          rcases List.mem_cons.mp hrow with h' | h'
          · exact ⟨d :: r, by simp [Split, hd, hS], by simp [← h', hmem]⟩
          · exact ⟨row, by simp [Split, hd, hS, h'], hmem⟩

theorem parseCells_error_of_invalid (y : Nat) (row : List Char) (c : Char)
    (hc : c ∈ row) (hbad : c ∉ Symbols) (x : Nat) (pieces : GoMap Pos Piece) :
    ∃ e, parseCells y x (explode row) pieces = .error e := by
  induction row generalizing x pieces with
  | nil => simp at hc
  | cons d row ih =>
    simp only [explode, List.map_cons, parseCells]
    split
    · exact ⟨_, rfl⟩
    · rcases List.mem_cons.mp hc with h | h
      · subst h
        rw [ParsePiece_singleton_none c hbad]
        exact ⟨_, rfl⟩
      · cases hp : ParsePiece (String.singleton d) with
        | none => exact ⟨_, rfl⟩
        | some piece =>
          simp only
          split
          · exact ih h _ _
          · exact ih h _ _

theorem parseRows_error_of_invalid (rows : List (List Char)) (row : List Char) (c : Char)
    (hrow : row ∈ rows) (hc : c ∈ row) (hbad : c ∉ Symbols) (y : Nat)
    (pieces : GoMap Pos Piece) :
    ∃ e, parseRows y rows pieces = .error e := by
  induction rows generalizing y pieces with
  | nil => simp at hrow
  | cons r rows ih =>
    simp only [parseRows]
    rcases List.mem_cons.mp hrow with h | h
    · subst h
      obtain ⟨e, he⟩ := parseCells_error_of_invalid y row c hc hbad 0 pieces
      rw [he]; exact ⟨_, rfl⟩
    · cases hp : parseCells y 0 (explode r) pieces with
      | error e => exact ⟨_, rfl⟩
      | ok pieces' => exact ih h _ _

theorem Parse_error_of_invalid (s : GoString) (c : Char) (hc : c ∈ s.data)
    (hsep : c ≠ ROW_SEP) (hbad : c ∉ Symbols) : ∃ e, Parse s = .error e := by
  unfold Parse
  split
  · exact ⟨_, rfl⟩
  · obtain ⟨row, hrow, hmem⟩ := mem_Split s.data ROW_SEP c hc hsep
    obtain ⟨e, he⟩ := parseRows_error_of_invalid _ row c hrow hmem hbad 0 []
    rw [he]; exact ⟨_, rfl⟩

theorem Parse_length_rejected (s : GoString) (h : len s ≠ 71) :
    Parse s = .error (.invalidBoardString s) := by
  unfold Parse
  rw [if_pos]
  simpa [BOARD_DIM] using h

theorem Split_noSep (r : List Char) (sep : Char) (hr : sep ∉ r) : Split r sep = [r] := by
  induction r with
  | nil => rfl
  | cons c r ih =>
    have hc : c ≠ sep := fun h => hr (by simp [h])
    have hr' : sep ∉ r := fun h => hr (by simp [h])
    simp [Split, hc, ih hr']

theorem Split_append_sep (r rest : List Char) (sep : Char) (hr : sep ∉ r) :
    Split (r ++ sep :: rest) sep = r :: Split rest sep := by
  induction r with
  | nil => simp [Split]
  | cons c r ih =>
    have hc : c ≠ sep := fun h => hr (by simp [h])
    have hr' : sep ∉ r := fun h => hr (by simp [h])
    simp [Split, hc, ih hr']

theorem Split_joinRows (rows : List (List Char)) (hne : rows ≠ [])
    (h : ∀ r ∈ rows, ROW_SEP ∉ r) : Split (joinRows rows) ROW_SEP = rows := by
  induction rows with
  | nil => exact absurd rfl hne
  | cons r rows ih =>
    cases rows with
    | nil => simpa [joinRows] using Split_noSep r ROW_SEP (h r (by simp))
    | cons r' rows' =>
      have := ih (by simp) (fun q hq => h q (by simp [hq]))
      rw [joinRows, Split_append_sep _ _ _ (h r (by simp)), this]
      simp

theorem ParsePiece_symbol (c : Char) (h : c ∈ Symbols) :
    ∃ p, ParsePiece (String.singleton c) = some p ∧
      (if p ≠ NO_PIECE then some p else none) = entryOf c := by
  simp only [Symbols, List.mem_cons, List.mem_singleton, List.not_mem_nil, or_false] at h
  rcases h with h | h | h | h | h <;> subst h <;> exact ⟨_, rfl, by decide⟩

theorem rowEntry_lt (cs : List Char) (x : Nat) (X : Int) (h : X < x) : rowEntry cs x X = none := by
  induction cs generalizing x with
  | nil => rfl
  | cons c cs ih =>
    have h1 : X ≠ (x : Int) := by omega
    simp only [rowEntry, h1, if_false]
    exact ih (x + 1) (by push_cast; omega)

theorem gridEntry_lt (rows : List (List Char)) (y : Nat) (pos : Pos) (h : pos.Y < y) :
    gridEntry rows y pos = none := by
  induction rows generalizing y with
  | nil => rfl
  | cons r rows ih =>
    have h1 : pos.Y ≠ (y : Int) := by omega
    simp only [gridEntry, h1, if_false]
    exact ih (y + 1) (by push_cast; omega)

theorem parseCells_ok (y : Nat) (hy : y < 8) (cs : List Char) (x : Nat)
    (hx : x + cs.length ≤ 8) (hsym : ∀ c ∈ cs, c ∈ Symbols) (pieces : GoMap Pos Piece) :
    ∃ m, parseCells y x (explode cs) pieces = .ok m ∧
      ∀ pos : Pos, m.get? pos =
        if pos.Y = y then (rowEntry cs x pos.X <|> pieces.get? pos) else pieces.get? pos := by
  induction cs generalizing x pieces with
  | nil =>
    refine ⟨pieces, rfl, fun pos => ?_⟩
    simp [rowEntry]
  | cons c cs ih =>
    simp only [List.length_cons] at hx
    have hb : ¬ (x ≥ BOARD_DIM ∨ y ≥ BOARD_DIM) := by simp [BOARD_DIM]; omega
    obtain ⟨p, hp, hent⟩ := ParsePiece_symbol c (hsym c (by simp))
    simp only [explode, List.map_cons, parseCells, hb, if_false, hp]
    have hsym' : ∀ d ∈ cs, d ∈ Symbols := fun d hd => hsym d (by simp [hd])
    by_cases hne : p ≠ NO_PIECE
    · rw [if_pos hne] at hent ⊢
      obtain ⟨m, hm, hget⟩ := ih (x + 1) (by omega) hsym' (GoMap.set pieces ⟨x, y⟩ p)
      refine ⟨m, hm, fun pos => ?_⟩
      rw [hget pos, GoMap.get?_set]
      by_cases hY : pos.Y = y
      · by_cases hX : pos.X = x
        · have hpos : (⟨x, y⟩ : Pos) = pos := by cases pos; simp_all
          simp [hY, hX, hpos, rowEntry, ← hent, rowEntry_lt cs (x + 1) x (by push_cast; omega)]
        · have hpos : (⟨x, y⟩ : Pos) ≠ pos := by
            intro h; apply hX; rw [← h]
          simp [hY, hX, hpos, rowEntry]
      · have hpos : (⟨x, y⟩ : Pos) ≠ pos := by
          intro h; apply hY; rw [← h]
        simp [hY, hpos]
    · rw [if_neg hne] at hent ⊢
      obtain ⟨m, hm, hget⟩ := ih (x + 1) (by omega) hsym' pieces
      refine ⟨m, hm, fun pos => ?_⟩
      rw [hget pos]
      by_cases hY : pos.Y = y
      · by_cases hX : pos.X = x
        · simp [hY, hX, rowEntry, ← hent, rowEntry_lt cs (x + 1) x (by push_cast; omega)]
        · simp [hY, hX, rowEntry]
      · simp [hY]

theorem parseRows_ok (rows : List (List Char)) (y : Nat) (hy : y + rows.length ≤ 8)
    (hrows : ∀ r ∈ rows, r.length ≤ 8 ∧ ∀ c ∈ r, c ∈ Symbols) (pieces : GoMap Pos Piece) :
    ∃ m, parseRows y rows pieces = .ok m ∧
      ∀ pos : Pos, m.get? pos = (gridEntry rows y pos <|> pieces.get? pos) := by
  induction rows generalizing y pieces with
  | nil => exact ⟨pieces, rfl, fun pos => by simp [gridEntry]⟩
  | cons r rows ih =>
    simp only [List.length_cons] at hy
    obtain ⟨hlen, hsym⟩ := hrows r (by simp)
    obtain ⟨m1, hm1, hget1⟩ := parseCells_ok y (by omega) r 0 (by omega) hsym pieces
    obtain ⟨m, hm, hget⟩ := ih (y + 1) (by omega) (fun q hq => hrows q (by simp [hq])) m1
    refine ⟨m, by simp only [parseRows, hm1, hm], fun pos => ?_⟩
    rw [hget pos, hget1 pos]
    by_cases hY : pos.Y = y
    · simp [hY, gridEntry, gridEntry_lt rows (y + 1) pos (by push_cast; omega)]
    · simp [hY, gridEntry]

theorem utf8Size_of_symbol (c : Char) (h : c ∈ Symbols ∨ c = ROW_SEP) : c.utf8Size = 1 := by
  simp only [Symbols, List.mem_cons, List.mem_singleton, List.not_mem_nil, or_false, ROW_SEP] at h
  rcases h with (h | h | h | h | h) | h <;> subst h <;> decide

theorem utf8Len_eq_length (l : List Char) (h : ∀ c ∈ l, c.utf8Size = 1) :
    String.utf8Len l = l.length := by
  induction l with
  | nil => rfl
  | cons c l ih =>
    simp [String.utf8Len_cons, ih (fun d hd => h d (by simp [hd])), h c (by simp)]

theorem mem_joinRows (rows : List (List Char)) (c : Char) (hc : c ∈ joinRows rows) :
    (∃ r ∈ rows, c ∈ r) ∨ c = ROW_SEP := by
  induction rows with
  | nil => simp [joinRows] at hc
  | cons r rows ih =>
    cases rows with
    | nil => left; exact ⟨r, by simp, by simpa [joinRows] using hc⟩
    | cons r' rows' =>
      rw [joinRows] at hc
      · rcases List.mem_append.mp hc with h | h
        · left; exact ⟨r, by simp, h⟩
        · rcases List.mem_cons.mp h with h | h
          · right; exact h
          · rcases ih h with ⟨q, hq, hcq⟩ | h'
            · left; exact ⟨q, by simp [hq], hcq⟩
            · right; exact h'
      · simp

theorem length_joinRows (rows : List (List Char)) (h : ∀ r ∈ rows, r.length = 8) :
    (joinRows rows).length + 1 = 9 * rows.length ∨ rows = [] := by
  induction rows with
  | nil => right; rfl
  | cons r rows ih =>
    left
    cases rows with
    | nil => simp [joinRows, h r (by simp)]
    | cons r' rows' =>
      rcases ih (fun q hq => h q (by simp [hq])) with h' | h'
      · rw [joinRows]
        · simp only [List.length_append, List.length_cons] at h' ⊢
          have := h r (by simp)
          omega
        · simp
      · simp at h'

theorem getElem?_joinRows (rows : List (List Char)) (h : ∀ r ∈ rows, r.length = 8)
    (x y : Nat) (hx : x < 8) (hy : y < rows.length) :
    (joinRows rows)[9 * y + x]? = (rows[y]?).bind (fun r => r[x]?) := by
  induction rows generalizing y with
  | nil => simp at hy
  | cons r rows ih =>
    have hr : r.length = 8 := h r (by simp)
    cases y with
    | zero =>
      cases rows with
      | nil => simp [joinRows]
      | cons r' rows' =>
        rw [joinRows]
        · simp [List.getElem?_append_left (show x < r.length by omega)]
        · simp
    | succ y =>
      cases rows with
      | nil => simp at hy
      | cons r' rows' =>
        have := ih (fun q hq => h q (by simp [hq])) y (by simpa using hy)
        rw [joinRows]
        · rw [List.getElem?_append_right (by omega)]
          have e : 9 * (y + 1) + x - r.length = (9 * y + x) + 1 := by omega
          rw [e, List.getElem?_cons_succ, this]
          simp
        · simp

theorem rowEntry_getElem (cs : List Char) (x i : Nat) :
    rowEntry cs x ((x + i : Nat) : Int) = (cs[i]?).bind entryOf := by
  induction cs generalizing x i with
  | nil => simp [rowEntry]
  | cons c cs ih =>
    cases i with
    | zero => simp [rowEntry]
    | succ i =>
      have h1 : ((x + (i + 1) : Nat) : Int) ≠ (x : Int) := by push_cast; omega
      have e : x + (i + 1) = (x + 1) + i := by omega
      simp only [rowEntry, h1, if_false, List.getElem?_cons_succ]
      rw [e, ih]

theorem gridEntry_getElem (rows : List (List Char)) (y j x : Nat) :
    gridEntry rows y ⟨(x : Nat), ((y + j : Nat) : Int)⟩ =
      (rows[j]?).bind (fun r => (r[x]?).bind entryOf) := by
  induction rows generalizing y j with
  | nil => simp [gridEntry]
  | cons r rows ih =>
    cases j with
    | zero =>
      have := rowEntry_getElem r 0 x
      simp only [Nat.zero_add] at this
      simp [gridEntry, this]
    | succ j =>
      have h1 : ((y + (j + 1) : Nat) : Int) ≠ (y : Int) := by push_cast; omega
      have e : y + (j + 1) = (y + 1) + j := by omega
      simp only [gridEntry, h1, if_false, List.getElem?_cons_succ]
      rw [e, ih]

theorem rowEntry_some (cs : List Char) (x : Nat) (X : Int) (p : Piece)
    (h : rowEntry cs x X = some p) : ∃ i : Nat, i < cs.length ∧ X = ((x + i : Nat) : Int) := by
  induction cs generalizing x with
  | nil => simp [rowEntry] at h
  | cons c cs ih =>
    by_cases hX : X = (x : Int)
    · exact ⟨0, by simp, by simpa using hX⟩
    · simp only [rowEntry, hX, if_false] at h
      obtain ⟨i, hi, hXi⟩ := ih (x + 1) h
      exact ⟨i + 1, by simpa using hi, by rw [hXi]; push_cast; omega⟩

theorem gridEntry_some (rows : List (List Char)) (y : Nat) (pos : Pos) (p : Piece)
    (h : gridEntry rows y pos = some p) :
    ∃ i j : Nat, j < rows.length ∧ (∃ r, rows[j]? = some r ∧ i < r.length) ∧
      pos = ⟨(i : Nat), ((y + j : Nat) : Int)⟩ := by
  induction rows generalizing y with
  | nil => simp [gridEntry] at h
  | cons r rows ih =>
    by_cases hY : pos.Y = (y : Int)
    · simp only [gridEntry, hY, if_true] at h
      obtain ⟨i, hi, hXi⟩ := rowEntry_some r 0 pos.X p h
      refine ⟨i, 0, by simp, ⟨r, by simp, hi⟩, ?_⟩
      cases pos; simp_all
    · simp only [gridEntry, hY, if_false] at h
      obtain ⟨i, j, hj, ⟨q, hq, hi⟩, hpos⟩ := ih (y + 1) h
      refine ⟨i, j + 1, by simpa using hj, ⟨q, by simpa using hq, hi⟩, ?_⟩
      rw [hpos]
      have e : y + 1 + j = y + (j + 1) := by omega
      rw [e]

theorem len_of_rows (s : GoString) (rows : List (List Char)) (hlen : rows.length = 8)
    (hrows : ∀ r ∈ rows, r.length = 8 ∧ ∀ c ∈ r, c ∈ Symbols) (hs : s.data = joinRows rows) :
    len s = 71 ∧ s.data.length = 71 := by
  have h1 : s.data.length = 71 := by
    rw [hs]
    rcases length_joinRows rows (fun r hr => (hrows r hr).1) with h | h
    · omega
    · simp [h] at hlen
  refine ⟨?_, h1⟩
  have : len s = String.utf8Len s.data := by cases s; rfl
  rw [this, utf8Len_eq_length, h1]
  intro c hc
  rw [hs] at hc
  apply utf8Size_of_symbol
  rcases mem_joinRows rows c hc with ⟨r, hr, hcr⟩ | h
  · left; exact (hrows r hr).2 c hcr
  · right; exact h

theorem sep_not_symbol : ROW_SEP ∉ Symbols := by decide

theorem Parse_of_rows (s : GoString) (rows : List (List Char)) (hlen : rows.length = 8)
    (hrows : ∀ r ∈ rows, r.length = 8 ∧ ∀ c ∈ r, c ∈ Symbols) (hs : s.data = joinRows rows) :
    ∃ m, Parse s = .ok ⟨m, BLACK_PLAYER⟩ ∧ ∀ pos : Pos, m.get? pos = gridEntry rows 0 pos := by
  have hl := (len_of_rows s rows hlen hrows hs).1
  have hsplit : Split s.data ROW_SEP = rows := by
    rw [hs]
    apply Split_joinRows
    · intro h; simp [h] at hlen
    · intro r hr hsep
      exact sep_not_symbol ((hrows r hr).2 _ hsep)
  obtain ⟨m, hm, hget⟩ := parseRows_ok rows 0 (by omega)
    (fun r hr => ⟨by rw [(hrows r hr).1], (hrows r hr).2⟩) []
  refine ⟨m, ?_, fun pos => ?_⟩
  · unfold Parse
    rw [if_neg (by simp [hl, BOARD_DIM]), hsplit, hm]
  · rw [hget pos]; simp [GoMap.get?]

/-! ## Lemmas on serialization -/

theorem String_data (g : Game) :
    g.String.data = joinRows ((List.range 8).map g.rowChars) := by
  have h8 : List.range 8 = [0, 1, 2, 3, 4, 5, 6, 7] := by decide
  simp only [Game.String, Game.rowChars, BOARD_DIM, h8, List.foldl_cons, List.foldl_nil,
    List.map_cons, List.map_nil, joinRows, List.flatMap_cons, List.flatMap_nil,
    String.data_append]
  simp [ROW_SEP]

theorem cell_eq (g : Game) (x y : Nat) (h : KnownOwnerAt g x y) :
    g.cell x y = String.singleton (cellChar (g.Pieces.get? ⟨x, y⟩)) := by
  unfold KnownOwnerAt at h
  cases hp : g.Pieces.get? ⟨x, y⟩ with
  | none => simp only [Game.cell, Game.PieceAt, hp, cellChar]; decide
  | some p =>
    obtain ⟨pl, k⟩ := p
    rcases h _ hp with h' | h' | h' <;> simp only at h' <;> subst h' <;>
      cases k <;> simp only [Game.cell, Game.PieceAt, hp, cellChar] <;> decide

theorem cellChar_mem (e : Option Piece) : cellChar e ∈ Symbols := by
  unfold cellChar
  split
  · decide
  · split
    · split <;> decide
    · split
      · split <;> decide
      · decide

theorem rowChars_eq (g : Game) (y : Nat) (h : ∀ x, x < 8 → KnownOwnerAt g x y) :
    g.rowChars y = (List.range 8).map (fun x : Nat => cellChar (g.Pieces.get? ⟨x, y⟩)) := by
  have h8 : List.range 8 = [0, 1, 2, 3, 4, 5, 6, 7] := by decide
  simp only [Game.rowChars, BOARD_DIM, h8, List.flatMap_cons, List.flatMap_nil, List.map_cons,
    List.map_nil, cell_eq g _ y (h _ (by decide : (0:Nat) < 8)),
    cell_eq g _ y (h _ (by decide : (1:Nat) < 8)), cell_eq g _ y (h _ (by decide : (2:Nat) < 8)),
    cell_eq g _ y (h _ (by decide : (3:Nat) < 8)), cell_eq g _ y (h _ (by decide : (4:Nat) < 8)),
    cell_eq g _ y (h _ (by decide : (5:Nat) < 8)), cell_eq g _ y (h _ (by decide : (6:Nat) < 8)),
    cell_eq g _ y (h _ (by decide : (7:Nat) < 8))]
  simp

theorem String_data_grid (g : Game) (h : ∀ x y, x < 8 → y < 8 → KnownOwnerAt g x y) :
    g.String.data = joinRows g.grid := by
  rw [String_data, Game.grid]
  congr 1
  apply List.map_congr_left
  intro y hy
  exact rowChars_eq g y (fun x hx => h x y hx (by simpa using hy))

theorem grid_rows (g : Game) :
    g.grid.length = 8 ∧ ∀ r ∈ g.grid, r.length = 8 ∧ ∀ c ∈ r, c ∈ Symbols := by
  refine ⟨by simp [Game.grid], fun r hr => ?_⟩
  simp only [Game.grid, List.mem_map] at hr
  obtain ⟨y, _, rfl⟩ := hr
  refine ⟨by simp, fun c hc => ?_⟩
  simp only [List.mem_map] at hc
  obtain ⟨x, _, rfl⟩ := hc
  exact cellChar_mem _

theorem grid_getElem (g : Game) (x y : Nat) (hx : x < 8) (hy : y < 8) :
    (g.grid[y]?).bind (fun r => r[x]?) = some (cellChar (g.Pieces.get? ⟨x, y⟩)) := by
  simp [Game.grid, List.getElem?_map, List.getElem?_range hy, List.getElem?_range hx]

theorem cellChar_entryOf (c : Char) (h : c ∈ Symbols) : cellChar (entryOf c) = c := by
  simp only [Symbols, List.mem_cons, List.mem_singleton, List.not_mem_nil, or_false] at h
  rcases h with h | h | h | h | h <;> subst h <;> decide

theorem entryOf_owner (c : Char) (h : c ∈ Symbols) (p : Piece) (hp : entryOf c = some p) :
    (p.Player = RED_PLAYER ∨ p.Player = BLACK_PLAYER) ∧ p ≠ NO_PIECE := by
  simp only [Symbols, List.mem_cons, List.mem_singleton, List.not_mem_nil, or_false] at h
  rcases h with h | h | h | h | h <;> subst h <;> revert hp <;>
    simp only [entryOf, StringPieces, GoMap.get?] <;> intro hp <;> revert p <;> decide

theorem getElem?_joinRows_sep (rows : List (List Char)) (h : ∀ r ∈ rows, r.length = 8)
    (y : Nat) (hy : y + 1 < rows.length) : (joinRows rows)[9 * y + 8]? = some ROW_SEP := by
  induction rows generalizing y with
  | nil => simp at hy
  | cons r rows ih =>
    have hr : r.length = 8 := h r (by simp)
    cases rows with
    | nil => simp at hy
    | cons r' rows' =>
      rw [joinRows]
      · cases y with
        | zero =>
          rw [List.getElem?_append_right (by omega)]
          simp [hr]
        | succ y =>
          have := ih (fun q hq => h q (by simp [hq])) y (by simpa using hy)
          rw [List.getElem?_append_right (by omega)]
          have e : 9 * (y + 1) + 8 - r.length = (9 * y + 8) + 1 := by omega
          rw [e, List.getElem?_cons_succ, this]
      · simp

theorem grid_of_rows (g : Game) (rows : List (List Char)) (hlen : rows.length = 8)
    (hrows : ∀ r ∈ rows, r.length = 8 ∧ ∀ c ∈ r, c ∈ Symbols)
    (hget : ∀ pos : Pos, g.Pieces.get? pos = gridEntry rows 0 pos) : g.grid = rows := by
  apply List.ext_getElem?
  intro y
  by_cases hy : y < 8
  · have hy' : y < rows.length := by omega
    obtain ⟨r, hr⟩ : ∃ r, rows[y]? = some r := ⟨rows[y], List.getElem?_eq_getElem hy'⟩
    have hrmem : r ∈ rows := List.getElem?_mem hr
    rw [hr]
    simp only [Game.grid, List.getElem?_map, List.getElem?_range hy, Option.map_some',
      Option.some.injEq]
    apply List.ext_getElem?
    intro x
    by_cases hx : x < 8
    · have hx' : x < r.length := by rw [(hrows r hrmem).1]; exact hx
      have hc : r[x]? = some r[x] := List.getElem?_eq_getElem hx'
      have hsym : r[x] ∈ Symbols := (hrows r hrmem).2 _ (List.getElem_mem hx')
      have := gridEntry_getElem rows 0 y x
      simp only [Nat.zero_add, hr, hc, Option.some_bind] at this
      simp only [List.getElem?_map, List.getElem?_range hx, Option.map_some', hget, this, hc,
        cellChar_entryOf _ hsym]
    · rw [List.getElem?_eq_none (by simp; omega), List.getElem?_eq_none]
      rw [(hrows r hrmem).1]; omega
  · rw [List.getElem?_eq_none (by simp [Game.grid]; omega), List.getElem?_eq_none (by omega)]

theorem knownOwner_of_rows (g : Game) (rows : List (List Char))
    (hrows : ∀ r ∈ rows, r.length = 8 ∧ ∀ c ∈ r, c ∈ Symbols)
    (hget : ∀ pos : Pos, g.Pieces.get? pos = gridEntry rows 0 pos) (pos : Pos) (p : Piece)
    (hp : g.Pieces.get? pos = some p) :
    ((p.Player = RED_PLAYER ∨ p.Player = BLACK_PLAYER) ∧ p ≠ NO_PIECE) ∧
      ∃ x y : Nat, x < 8 ∧ y < rows.length ∧ pos = ⟨x, y⟩ := by
  rw [hget] at hp
  obtain ⟨i, j, hj, ⟨r, hr, hi⟩, hpos⟩ := gridEntry_some rows 0 pos p hp
  have hrmem : r ∈ rows := List.getElem?_mem hr
  have hc : r[i]? = some r[i] := List.getElem?_eq_getElem hi
  have hsym : r[i] ∈ Symbols := (hrows r hrmem).2 _ (List.getElem_mem hi)
  have := gridEntry_getElem rows 0 j i
  rw [← hpos, hp] at this
  simp only [hr, hc, Option.some_bind] at this
  refine ⟨entryOf_owner _ hsym p this.symm, i, j, ?_, hj, ?_⟩
  · rw [← (hrows r hrmem).1]; exact hi
  · simpa using hpos

/-! ## The board text format: `Parse` and `String` -/

theorem kingBoard_wellFormed : WellFormed kingBoard :=
  ⟨kingRows, by decide, by decide, by decide⟩

theorem emptyBoard_wellFormed : WellFormed emptyBoard :=
  ⟨List.replicate 8 (List.replicate 8 '*'), by decide, by decide, by decide⟩

/-- C1. Parse-then-String round trip: on every well-formed board string `s`, `Parse`
succeeds and `String` of the returned game is exactly `s`. -/
theorem Parse_String_roundtrip (s : GoString) (h : WellFormed s) :
    ∃ g, Parse s = .ok g ∧ g.String = s := by
  obtain ⟨rows, hlen, hrows, hs⟩ := h
  obtain ⟨m, hm, hget⟩ := Parse_of_rows s rows hlen hrows hs
  refine ⟨⟨m, BLACK_PLAYER⟩, hm, ?_⟩
  apply String.ext
  have hknown : ∀ x y, x < 8 → y < 8 → KnownOwnerAt ⟨m, BLACK_PLAYER⟩ x y := by
    intro x y _ _ p hp
    have := (knownOwner_of_rows ⟨m, BLACK_PLAYER⟩ rows hrows hget _ p hp).1.1
    rcases this with h | h
    · exact Or.inl h
    · exact Or.inr (Or.inl h)
  rw [String_data_grid _ hknown, grid_of_rows ⟨m, BLACK_PLAYER⟩ rows hlen hrows hget, hs]

set_option maxRecDepth 100000 in
theorem Parse_String_roundtrip_witness :
    WellFormed emptyBoard ∧ (∃ g, Parse emptyBoard = .ok g ∧ g.String = emptyBoard) ∧
    Parse emptyBoard = .ok ⟨[], BLACK_PLAYER⟩ ∧
    (Game.mk [] BLACK_PLAYER).String = emptyBoard :=
  ⟨emptyBoard_wellFormed, Parse_String_roundtrip emptyBoard emptyBoard_wellFormed,
    by decide, by decide⟩

theorem WellFormed_head (s : GoString) (h : WellFormed s) :
    ∃ c, s.data[0]? = some c ∧ c ∈ Symbols := by
  obtain ⟨rows, hlen, hrows, hs⟩ := h
  have h0 := getElem?_joinRows rows (fun r hr => (hrows r hr).1) 0 0 (by omega) (by omega)
  obtain ⟨r, hr⟩ : ∃ r, rows[0]? = some r := ⟨rows[0], List.getElem?_eq_getElem (by omega)⟩
  have hrmem : r ∈ rows := List.getElem?_mem hr
  have hx : 0 < r.length := by rw [(hrows r hrmem).1]; omega
  have hc : r[0]? = some r[0] := List.getElem?_eq_getElem hx
  refine ⟨r[0], ?_, (hrows r hrmem).2 _ (List.getElem_mem hx)⟩
  rw [hs]
  simpa [hr, hc] using h0

theorem WellFormed_last (s : GoString) (h : WellFormed s) :
    ∃ c, s.data[70]? = some c ∧ c ∈ Symbols := by
  obtain ⟨rows, hlen, hrows, hs⟩ := h
  have h0 := getElem?_joinRows rows (fun r hr => (hrows r hr).1) 7 7 (by omega) (by omega)
  obtain ⟨r, hr⟩ : ∃ r, rows[7]? = some r := ⟨rows[7], List.getElem?_eq_getElem (by omega)⟩
  have hrmem : r ∈ rows := List.getElem?_mem hr
  have hx : 7 < r.length := by rw [(hrows r hrmem).1]; omega
  have hc : r[7]? = some r[7] := List.getElem?_eq_getElem hx
  refine ⟨r[7], ?_, (hrows r hrmem).2 _ (List.getElem_mem hx)⟩
  rw [hs]
  simpa [hr, hc] using h0

/-- C2. `Parse` accepts strings that are not in the board text format: the string of 71
row separators has length 71 and splits into 72 empty rows, so neither loop body runs and
`Parse` returns an empty game with no error; likewise a string whose eighth row has only
seven symbols, followed by a trailing separator, is accepted.  Neither string is
well-formed. -/
theorem Parse_accepts_malformed :
    Parse pipes71 = .ok ⟨[], BLACK_PLAYER⟩ ∧ ¬ WellFormed pipes71 ∧
    Parse shortRowBoard = .ok ⟨[(⟨2, 3⟩, ⟨RED_PLAYER, true⟩)], BLACK_PLAYER⟩ ∧
    ¬ WellFormed shortRowBoard := by
  refine ⟨by decide, ?_, by decide, ?_⟩
  · intro h
    obtain ⟨c, hc, hsym⟩ := WellFormed_head _ h
    have : pipes71.data[0]? = some ROW_SEP := by decide
    rw [this] at hc
    cases hc
    exact sep_not_symbol hsym
  · intro h
    obtain ⟨c, hc, hsym⟩ := WellFormed_last _ h
    have : shortRowBoard.data[70]? = some ROW_SEP := by decide
    rw [this] at hc
    cases hc
    exact sep_not_symbol hsym

/-- C3. Length rejection: every string whose length is not exactly 71 is rejected by
`Parse` with the format error, and no game is returned. -/
theorem Parse_rejects_wrong_length (s : GoString) (h : len s ≠ 71) :
    Parse s = .error (.invalidBoardString s) ∧ ∀ g, Parse s ≠ .ok g := by
  have := Parse_length_rejected s h
  exact ⟨this, fun g hg => by rw [this] at hg; cases hg⟩

theorem Parse_rejects_wrong_length_witness :
    len seventyStars ≠ 71 ∧
      (Parse seventyStars = .error (.invalidBoardString seventyStars) ∧
        ∀ g, Parse seventyStars ≠ .ok g) :=
  ⟨by decide, Parse_rejects_wrong_length seventyStars (by decide)⟩

/-- C4. Symbol rejection: every string that contains, anywhere, a character which is
neither the row separator nor one of the five symbols is rejected by `Parse` with an
error, and no game is returned; this holds whatever the length of the string, so in
particular for every string of length 71. -/
theorem Parse_rejects_invalid_symbol (s : GoString) (c : Char)
    (hc : c ∈ s.data) (hsep : c ≠ '|') (hbad : c ∉ ['r', 'b', 'R', 'B', '*']) :
    (∃ e, Parse s = .error e) ∧ ∀ g, Parse s ≠ .ok g := by
  obtain ⟨e, he⟩ := Parse_error_of_invalid s c hc hsep hbad
  exact ⟨⟨e, he⟩, fun g hg => by rw [he] at hg; cases hg⟩

theorem Parse_rejects_invalid_symbol_witness :
    len qBoard = 71 ∧ 'q' ∈ qBoard.data ∧
      ((∃ e, Parse qBoard = .error e) ∧ ∀ g, Parse qBoard ≠ .ok g) ∧
      Parse qBoard = .error (.invalidPiece 2 3) :=
  ⟨by decide, by decide,
    Parse_rejects_invalid_symbol qBoard 'q' (by decide) (by decide) (by decide),
    by decide⟩

/-- C5. Parse placement and sparseness: on every well-formed board string `s`, `Parse`
succeeds; for all `x, y < 8`, with `c` the character of `s` at index `9 * y + x`, the
piece map has no entry at `(x, y)` when `c` is the empty symbol and the entry
`StringPieces[c]` otherwise (`r` a red man, `b` a black man, `R` a red king, `B` a black
king); no stored piece is `NO_PIECE`, and every entry lies at a
position `(x, y)` with `x, y < 8`. -/
theorem Parse_places_pieces (s : GoString) (h : WellFormed s) :
    ∃ g, Parse s = .ok g ∧
      (∀ x y : Nat, x < 8 → y < 8 → ∃ c, s.data[9 * y + x]? = some c ∧
        (c = '*' → g.Pieces.get? ⟨x, y⟩ = none) ∧
        (c ≠ '*' → g.Pieces.get? ⟨x, y⟩ = StringPieces.get? (String.singleton c) ∧
          g.Pieces.get? ⟨x, y⟩ ≠ none) ∧
        (c = 'r' → g.Pieces.get? ⟨x, y⟩ = some ⟨RED_PLAYER, false⟩) ∧
        (c = 'b' → g.Pieces.get? ⟨x, y⟩ = some ⟨BLACK_PLAYER, false⟩) ∧
        (c = 'R' → g.Pieces.get? ⟨x, y⟩ = some ⟨RED_PLAYER, true⟩) ∧
        (c = 'B' → g.Pieces.get? ⟨x, y⟩ = some ⟨BLACK_PLAYER, true⟩)) ∧
      (∀ pos p, g.Pieces.get? pos = some p →
        p ≠ NO_PIECE ∧ ∃ x y : Nat, x < 8 ∧ y < 8 ∧ pos = ⟨x, y⟩) := by
  obtain ⟨rows, hlen, hrows, hs⟩ := h
  obtain ⟨m, hm, hget⟩ := Parse_of_rows s rows hlen hrows hs
  refine ⟨⟨m, BLACK_PLAYER⟩, hm, ?_, ?_⟩
  · intro x y hx hy
    have hy' : y < rows.length := by omega
    obtain ⟨r, hr⟩ : ∃ r, rows[y]? = some r := ⟨rows[y], List.getElem?_eq_getElem hy'⟩
    have hrmem : r ∈ rows := List.getElem?_mem hr
    have hx' : x < r.length := by rw [(hrows r hrmem).1]; exact hx
    have hc : r[x]? = some r[x] := List.getElem?_eq_getElem hx'
    have hsym : r[x] ∈ Symbols := (hrows r hrmem).2 _ (List.getElem_mem hx')
    have hidx := getElem?_joinRows rows (fun q hq => (hrows q hq).1) x y hx hy'
    have hent := gridEntry_getElem rows 0 y x
    simp only [Nat.zero_add, hr, hc, Option.some_bind] at hent hidx
    refine ⟨r[x], by rw [hs, hidx], ?_, ?_, ?_, ?_, ?_, ?_⟩
    · intro hstar
      simp only [hget, hent, entryOf, hstar, if_true]
    · intro hstar
      simp only [hget, hent, entryOf, hstar, if_false, true_and]
      obtain ⟨p, hp, hp'⟩ := ParsePiece_symbol _ hsym
      simp only [ParsePiece] at hp
      rw [hp]; simp
    · intro hc'; rw [hget, hent, hc']; decide
    · intro hc'; rw [hget, hent, hc']; decide
    · intro hc'; rw [hget, hent, hc']; decide
    · intro hc'; rw [hget, hent, hc']; decide
  · intro pos p hp
    obtain ⟨⟨_, hne⟩, x, y, hx, hy, hpos⟩ :=
      knownOwner_of_rows ⟨m, BLACK_PLAYER⟩ rows hrows hget pos p hp
    exact ⟨hne, x, y, hx, by omega, hpos⟩

theorem Parse_places_pieces_witness :
    WellFormed kingBoard ∧
    (∃ g, Parse kingBoard = .ok g ∧
      (∀ x y : Nat, x < 8 → y < 8 → ∃ c, kingBoard.data[9 * y + x]? = some c ∧
        (c = '*' → g.Pieces.get? ⟨x, y⟩ = none) ∧
        (c ≠ '*' → g.Pieces.get? ⟨x, y⟩ = StringPieces.get? (String.singleton c) ∧
          g.Pieces.get? ⟨x, y⟩ ≠ none) ∧
        (c = 'r' → g.Pieces.get? ⟨x, y⟩ = some ⟨RED_PLAYER, false⟩) ∧
        (c = 'b' → g.Pieces.get? ⟨x, y⟩ = some ⟨BLACK_PLAYER, false⟩) ∧
        (c = 'R' → g.Pieces.get? ⟨x, y⟩ = some ⟨RED_PLAYER, true⟩) ∧
        (c = 'B' → g.Pieces.get? ⟨x, y⟩ = some ⟨BLACK_PLAYER, true⟩)) ∧
      (∀ pos p, g.Pieces.get? pos = some p →
        p ≠ NO_PIECE ∧ ∃ x y : Nat, x < 8 ∧ y < 8 ∧ pos = ⟨x, y⟩)) ∧
    Parse kingBoard = .ok ⟨[(⟨2, 3⟩, ⟨RED_PLAYER, true⟩)], BLACK_PLAYER⟩ :=
  ⟨kingBoard_wellFormed, Parse_places_pieces kingBoard kingBoard_wellFormed, by decide⟩

theorem String_of_known (g : Game) (h : ∀ x y, x < 8 → y < 8 → KnownOwnerAt g x y) :
    g.String.data.length = 71 ∧ len g.String = 71 ∧
    (∀ x y : Nat, x < 8 → y < 8 →
      g.String.data[9 * y + x]? = some (cellChar (g.Pieces.get? ⟨x, y⟩))) ∧
    (∀ y : Nat, y < 7 → g.String.data[9 * y + 8]? = some ROW_SEP) := by
  have hd := String_data_grid g h
  obtain ⟨hlen, hrows⟩ := grid_rows g
  obtain ⟨h1, h2⟩ := len_of_rows g.String g.grid hlen hrows hd
  refine ⟨h2, h1, fun x y hx hy => ?_, fun y hy => ?_⟩
  · rw [hd, getElem?_joinRows g.grid (fun r hr => (hrows r hr).1) x y hx (by omega),
      grid_getElem g x y hx hy]
  · rw [hd, getElem?_joinRows_sep g.grid (fun r hr => (hrows r hr).1) y (by omega)]

/-- C6. `String` renders the grid cell by cell: for every game whose stored pieces are
owned by Red or Black and all `x, y < 8`, the character at index `9 * y + x` of the output
is `r` or `b` for a red or black man at `(x, y)`, `R` or `B` for a red or black king, and
`*` when the piece map has no entry there; the character at index `9 * y + 8` is the row
separator for every `y < 7`; the output has 71 characters (and 71 bytes), so nothing
follows the last row. -/
theorem String_renders_cells (g : Game)
    (h : ∀ pos p, g.Pieces.get? pos = some p →
      p.Player = RED_PLAYER ∨ p.Player = BLACK_PLAYER) :
    (∀ x y : Nat, x < 8 → y < 8 →
      (g.Pieces.get? ⟨x, y⟩ = some ⟨RED_PLAYER, false⟩ →
        g.String.data[9 * y + x]? = some 'r') ∧
      (g.Pieces.get? ⟨x, y⟩ = some ⟨BLACK_PLAYER, false⟩ →
        g.String.data[9 * y + x]? = some 'b') ∧
      (g.Pieces.get? ⟨x, y⟩ = some ⟨RED_PLAYER, true⟩ →
        g.String.data[9 * y + x]? = some 'R') ∧
      (g.Pieces.get? ⟨x, y⟩ = some ⟨BLACK_PLAYER, true⟩ →
        g.String.data[9 * y + x]? = some 'B') ∧
      (g.Pieces.get? ⟨x, y⟩ = none → g.String.data[9 * y + x]? = some '*')) ∧
    (∀ y : Nat, y < 7 → g.String.data[9 * y + 8]? = some '|') ∧
    g.String.data.length = 71 ∧ len g.String = 71 := by
  have hk : ∀ x y, x < 8 → y < 8 → KnownOwnerAt g x y := by
    intro x y _ _ p hp
    rcases h _ p hp with h' | h'
    · exact Or.inl h'
    · exact Or.inr (Or.inl h')
  obtain ⟨h1, h2, h3, h4⟩ := String_of_known g hk
  refine ⟨fun x y hx hy => ?_, h4, h1, h2⟩
  rw [h3 x y hx hy]
  refine ⟨?_, ?_, ?_, ?_, ?_⟩ <;> intro he <;> rw [he] <;> decide

set_option maxRecDepth 100000 in
theorem String_renders_cells_witness :
    (∀ pos p, twoPieceGame.Pieces.get? pos = some p →
      p.Player = RED_PLAYER ∨ p.Player = BLACK_PLAYER) ∧
    twoPieceGame.String.data[9 * 3 + 2]? = some 'R' ∧
    twoPieceGame.String.data[9 * 0 + 1]? = some 'b' ∧
    twoPieceGame.String.data[9 * 0 + 0]? = some '*' ∧
    twoPieceGame.String.data[9 * 6 + 8]? = some '|' ∧
    twoPieceGame.String =
      "*b******|********|********|**R*****|********|********|********|********" := by
  have hown : ∀ pos p, twoPieceGame.Pieces.get? pos = some p →
      p.Player = RED_PLAYER ∨ p.Player = BLACK_PLAYER := by
    intro pos p hp
    simp only [twoPieceGame, GoMap.get?] at hp
    split at hp
    · cases hp; exact Or.inl rfl
    · split at hp
      · cases hp; exact Or.inr rfl
      · cases hp
  have hthm := String_renders_cells twoPieceGame hown
  exact ⟨hown, (hthm.1 2 3 (by decide) (by decide)).2.2.1 (by decide),
    (hthm.1 1 0 (by decide) (by decide)).2.1 (by decide),
    (hthm.1 0 0 (by decide) (by decide)).2.2.2.2 (by decide),
    hthm.2.1 6 (by decide), by decide⟩

set_option maxRecDepth 100000 in
/-- C7, as stated, fails: a piece whose owner is not a key of `PieceStrings` is written as
the empty string, so the output for `greenGame` has 70 bytes, not 71. -/
theorem String_length_counterexample :
    len greenGame.String = 70 ∧ len greenGame.String ≠ 71 := by
  decide

/-- C7, amended. `String` output length: for every game in which each piece stored at a
board position `(x, y)`, `x, y < 8`, is owned by Red, Black or `NO_PLAYER` (whatever its
king flag, whatever is stored at other positions, and whatever the turn), the length of
`String()` is exactly 71. -/
theorem String_length (g : Game)
    (h : ∀ x y : Nat, x < 8 → y < 8 → ∀ p, g.Pieces.get? ⟨x, y⟩ = some p →
      p.Player = RED_PLAYER ∨ p.Player = BLACK_PLAYER ∨ p.Player = NO_PLAYER) :
    len g.String = 71 :=
  (String_of_known g h).2.1

theorem String_length_witness :
    (∀ x y : Nat, x < 8 → y < 8 → ∀ p, sentinelGame.Pieces.get? ⟨x, y⟩ = some p →
      p.Player = RED_PLAYER ∨ p.Player = BLACK_PLAYER ∨ p.Player = NO_PLAYER) ∧
    len sentinelGame.String = 71 := by
  have hown : ∀ x y : Nat, x < 8 → y < 8 → ∀ p, sentinelGame.Pieces.get? ⟨x, y⟩ = some p →
      p.Player = RED_PLAYER ∨ p.Player = BLACK_PLAYER ∨ p.Player = NO_PLAYER := by
    intro x y _ _ p hp
    simp only [sentinelGame, GoMap.get?] at hp
    split at hp
    · cases hp; exact Or.inr (Or.inr rfl)
    · split at hp
      · cases hp; exact Or.inl rfl
      · cases hp
  exact ⟨hown, String_length sentinelGame hown⟩

/-! ## Geometry and the tables -/

namespace GoMap

variable {K K1 K2 K3 V : Type} [DecidableEq K] [DecidableEq K1] [DecidableEq K2]
  [DecidableEq K3]

theorem set_set (m : GoMap K V) (k : K) (a b : V) : set (set m k a) k b = set m k b := by
  induction m with
  | nil => simp [set]
  | cons e m ih =>
    obtain ⟨k', v'⟩ := e
    by_cases h : k' = k
    · simp [set, h]
    · simp [set, h, ih]

theorem set_of_get? (m : GoMap K V) (k : K) (v : V) (h : get? m k = some v) :
    set m k v = m := by
  induction m with
  | nil => simp [get?] at h
  | cons e m ih =>
    obtain ⟨k', v'⟩ := e
    by_cases hk : k' = k
    · subst hk
      simp only [get?, if_true, Option.some.injEq] at h
      simp [set, h]
    · simp only [get?, hk, if_false] at h
      simp [set, hk, ih h]

theorem set2_of_get? (m : GoMap K1 (GoMap K2 V)) (k1 : K1) (k2 : K2) (v : V)
    (inner : GoMap K2 V) (h : get? m k1 = some inner) :
    set2 m k1 k2 v = some (set m k1 (set inner k2 v)) := by
  simp [set2, h]

theorem set3_of_get? (m : GoMap K1 (GoMap K2 (GoMap K3 V))) (k1 : K1) (k2 : K2) (k3 : K3)
    (v : V) (i1 : GoMap K2 (GoMap K3 V)) (i2 : GoMap K3 V) (h1 : get? m k1 = some i1)
    (h2 : get? i1 k2 = some i2) :
    set3 m k1 k2 k3 v = some (set m k1 (set i1 k2 (set i2 k3 v))) := by
  simp [set3, h1, set2_of_get? i1 k2 k3 v i2 h2]

theorem get?_set_self (m : GoMap K V) (k : K) (v : V) : get? (set m k v) k = some v := by
  simp [get?_set]

end GoMap

theorem initDirection_eq (player : Player) (forward : Int) (pos : Pos) (t : Tables)
    (direction : Int) (M : GoMap Pos (GoMap Pos Bool)) (mp : GoMap Pos Bool)
    (J : GoMap Pos (GoMap Pos Pos)) (jp : GoMap Pos Pos) (km : GoMap Pos Bool)
    (kj : GoMap Pos Pos)
    (hM : t.Moves.get? player = some M) (hMp : M.get? pos = some mp)
    (hJ : t.Jumps.get? player = some J) (hJp : J.get? pos = some jp)
    (hKM : t.KingMoves.get? pos = some km) (hKJ : t.KingJumps.get? pos = some kj) :
    initDirection player forward pos t direction = some
      { Moves := t.Moves.set player
          (M.set pos (setIfUsable mp ⟨pos.X + direction, pos.Y + forward⟩ true)),
        Jumps := t.Jumps.set player
          (J.set pos (setIfUsable jp ⟨pos.X + 2 * direction, pos.Y + 2 * forward⟩
            (Capture pos ⟨pos.X + 2 * direction, pos.Y + 2 * forward⟩))),
        KingMoves := t.KingMoves.set pos
          (setIfUsable km ⟨pos.X + direction, pos.Y + forward⟩ true),
        KingJumps := t.KingJumps.set pos
          (setIfUsable kj ⟨pos.X + 2 * direction, pos.Y + 2 * forward⟩
            (Capture pos ⟨pos.X + 2 * direction, pos.Y + 2 * forward⟩)) } := by
  obtain ⟨tM, tJ, tKM, tKJ⟩ := t
  simp only at hM hJ hKM hKJ
  have eM : tM.set player (M.set pos mp) = tM := by
    rw [GoMap.set_of_get? M pos mp hMp, GoMap.set_of_get? tM player M hM]
  have eJ : tJ.set player (J.set pos jp) = tJ := by
    rw [GoMap.set_of_get? J pos jp hJp, GoMap.set_of_get? tJ player J hJ]
  have eKM : tKM.set pos km = tKM := GoMap.set_of_get? tKM pos km hKM
  have eKJ : tKJ.set pos kj = tKJ := GoMap.set_of_get? tKJ pos kj hKJ
  simp only [initDirection, setIfUsable, one_mul]
  by_cases h1 : isUsable ⟨pos.X + direction, pos.Y + forward⟩ = true <;>
    by_cases h2 : isUsable ⟨pos.X + 2 * direction, pos.Y + 2 * forward⟩ = true <;>
    simp [h1, h2, GoMap.set3_of_get? _ _ _ _ _ _ _ hM hMp,
      GoMap.set3_of_get? _ _ _ _ _ _ _ hJ hJp, GoMap.set2_of_get? _ _ _ _ _ hKM,
      GoMap.set2_of_get? _ _ _ _ _ hKJ, eM, eJ, eKM, eKJ]

theorem initPlayer_eq (pos : Pos) (t : Tables) (i : Nat) (player : Player) (forward : Int)
    (M : GoMap Pos (GoMap Pos Bool)) (J : GoMap Pos (GoMap Pos Pos)) (km : GoMap Pos Bool)
    (kj : GoMap Pos Pos) (hi : directions[i]? = some forward)
    (hM : t.Moves.get? player = some M) (hJ : t.Jumps.get? player = some J)
    (hKM : t.KingMoves.get? pos = some km) (hKJ : t.KingJumps.get? pos = some kj) :
    initPlayer pos t (i, player) = some
      { Moves := t.Moves.set player (M.set pos (addMoves forward pos [])),
        Jumps := t.Jumps.set player (J.set pos (addJumps forward pos [])),
        KingMoves := t.KingMoves.set pos (addMoves forward pos km),
        KingJumps := t.KingJumps.set pos (addJumps forward pos kj) } := by
  obtain ⟨tM, tJ, tKM, tKJ⟩ := t
  simp only at hM hJ hKM hKJ
  simp only [initPlayer, hi, GoMap.set2_of_get? _ _ _ _ _ hM, GoMap.set2_of_get? _ _ _ _ _ hJ,
    Option.bind_eq_bind, Option.some_bind]
  simp only [directions, List.foldlM_cons, List.foldlM_nil, Option.bind_eq_bind]
  rw [initDirection_eq player forward pos _ 1 (M.set pos []) [] (J.set pos []) [] km kj
    (GoMap.get?_set_self _ _ _) (GoMap.get?_set_self _ _ _) (GoMap.get?_set_self _ _ _)
    (GoMap.get?_set_self _ _ _) hKM hKJ]
  simp only [Option.some_bind]
  rw [initDirection_eq player forward pos _ (-1) _ _ _ _ _ _
    (GoMap.get?_set_self _ _ _) (GoMap.get?_set_self _ _ _) (GoMap.get?_set_self _ _ _)
    (GoMap.get?_set_self _ _ _) (GoMap.get?_set_self _ _ _) (GoMap.get?_set_self _ _ _)]
  simp [GoMap.set_set, addMoves, addJumps]

theorem black_ne_red : BLACK_PLAYER ≠ RED_PLAYER := by decide

theorem initPos_eq (t : Tables) (pos : Pos) (MB MR : GoMap Pos (GoMap Pos Bool))
    (JB JR : GoMap Pos (GoMap Pos Pos))
    (hMB : t.Moves.get? BLACK_PLAYER = some MB) (hMR : t.Moves.get? RED_PLAYER = some MR)
    (hJB : t.Jumps.get? BLACK_PLAYER = some JB) (hJR : t.Jumps.get? RED_PLAYER = some JR) :
    initPos t pos = some
      { Moves := (t.Moves.set BLACK_PLAYER (MB.set pos (addMoves 1 pos []))).set RED_PLAYER
          (MR.set pos (addMoves (-1) pos [])),
        Jumps := (t.Jumps.set BLACK_PLAYER (JB.set pos (addJumps 1 pos []))).set RED_PLAYER
          (JR.set pos (addJumps (-1) pos [])),
        KingMoves := t.KingMoves.set pos (addMoves (-1) pos (addMoves 1 pos [])),
        KingJumps := t.KingJumps.set pos (addJumps (-1) pos (addJumps 1 pos [])) } := by
  obtain ⟨tM, tJ, tKM, tKJ⟩ := t
  simp only at hMB hMR hJB hJR
  simp only [initPos, List.enum, List.enumFrom, List.foldlM_cons, List.foldlM_nil,
    Option.bind_eq_bind]
  rw [initPlayer_eq pos _ 0 BLACK_PLAYER 1 MB JB [] [] (by decide) hMB hJB
    (GoMap.get?_set_self _ _ _) (GoMap.get?_set_self _ _ _)]
  simp only [Option.some_bind]
  rw [initPlayer_eq pos _ 1 RED_PLAYER (-1) MR JR _ _ (by decide)
    (by simp [GoMap.get?_set, black_ne_red, hMR]) (by simp [GoMap.get?_set, black_ne_red, hJR])
    (GoMap.get?_set_self _ _ _) (GoMap.get?_set_self _ _ _)]
  simp [GoMap.set_set]

theorem foldlM_initPos (order : List Pos) (t : Tables) (MB MR : GoMap Pos (GoMap Pos Bool))
    (JB JR : GoMap Pos (GoMap Pos Pos))
    (hMB : t.Moves.get? BLACK_PLAYER = some MB) (hMR : t.Moves.get? RED_PLAYER = some MR)
    (hJB : t.Jumps.get? BLACK_PLAYER = some JB) (hJR : t.Jumps.get? RED_PLAYER = some JR) :
    ∃ t' MB' MR' JB' JR', order.foldlM initPos t = some t' ∧
      t'.Moves.get? BLACK_PLAYER = some MB' ∧ t'.Moves.get? RED_PLAYER = some MR' ∧
      t'.Jumps.get? BLACK_PLAYER = some JB' ∧ t'.Jumps.get? RED_PLAYER = some JR' ∧
      (∀ q, MB'.get? q = if q ∈ order then some (addMoves 1 q []) else MB.get? q) ∧
      (∀ q, MR'.get? q = if q ∈ order then some (addMoves (-1) q []) else MR.get? q) ∧
      (∀ q, JB'.get? q = if q ∈ order then some (addJumps 1 q []) else JB.get? q) ∧
      (∀ q, JR'.get? q = if q ∈ order then some (addJumps (-1) q []) else JR.get? q) ∧
      (∀ q, t'.KingMoves.get? q =
        if q ∈ order then some (addMoves (-1) q (addMoves 1 q [])) else t.KingMoves.get? q) ∧
      (∀ q, t'.KingJumps.get? q =
        if q ∈ order then some (addJumps (-1) q (addJumps 1 q [])) else t.KingJumps.get? q) := by
  induction order generalizing t MB MR JB JR with
  | nil => exact ⟨t, MB, MR, JB, JR, rfl, hMB, hMR, hJB, hJR, by simp⟩
  | cons pos order ih =>
    simp only [List.foldlM_cons, initPos_eq t pos MB MR JB JR hMB hMR hJB hJR,
      Option.bind_eq_bind, Option.some_bind]
    have e1 : ((t.Moves.set BLACK_PLAYER (MB.set pos (addMoves 1 pos []))).set RED_PLAYER
        (MR.set pos (addMoves (-1) pos []))).get? BLACK_PLAYER =
        some (MB.set pos (addMoves 1 pos [])) := by
      simp [GoMap.get?_set, black_ne_red, Ne.symm black_ne_red]
    have e2 : ((t.Moves.set BLACK_PLAYER (MB.set pos (addMoves 1 pos []))).set RED_PLAYER
        (MR.set pos (addMoves (-1) pos []))).get? RED_PLAYER =
        some (MR.set pos (addMoves (-1) pos [])) := by
      simp [GoMap.get?_set]
    have e3 : ((t.Jumps.set BLACK_PLAYER (JB.set pos (addJumps 1 pos []))).set RED_PLAYER
        (JR.set pos (addJumps (-1) pos []))).get? BLACK_PLAYER =
        some (JB.set pos (addJumps 1 pos [])) := by
      simp [GoMap.get?_set, black_ne_red, Ne.symm black_ne_red]
    have e4 : ((t.Jumps.set BLACK_PLAYER (JB.set pos (addJumps 1 pos []))).set RED_PLAYER
        (JR.set pos (addJumps (-1) pos []))).get? RED_PLAYER =
        some (JR.set pos (addJumps (-1) pos [])) := by
      simp [GoMap.get?_set]
    obtain ⟨t', MB', MR', JB', JR', ht', h1, h2, h3, h4, h5, h6, h7, h8, h9, h10⟩ :=
      ih ⟨(t.Moves.set BLACK_PLAYER (MB.set pos (addMoves 1 pos []))).set RED_PLAYER
            (MR.set pos (addMoves (-1) pos [])),
          (t.Jumps.set BLACK_PLAYER (JB.set pos (addJumps 1 pos []))).set RED_PLAYER
            (JR.set pos (addJumps (-1) pos [])),
          t.KingMoves.set pos (addMoves (-1) pos (addMoves 1 pos [])),
          t.KingJumps.set pos (addJumps (-1) pos (addJumps 1 pos []))⟩
        (MB.set pos (addMoves 1 pos [])) (MR.set pos (addMoves (-1) pos []))
        (JB.set pos (addJumps 1 pos [])) (JR.set pos (addJumps (-1) pos [])) e1 e2 e3 e4
    refine ⟨t', MB', MR', JB', JR', ht', h1, h2, h3, h4, ?_, ?_, ?_, ?_, ?_, ?_⟩
    · intro q; rw [h5 q, GoMap.get?_set]
      by_cases hq : q ∈ order <;> by_cases hp : pos = q <;> simp [hq, hp, eq_comm]
    · intro q; rw [h6 q, GoMap.get?_set]
      by_cases hq : q ∈ order <;> by_cases hp : pos = q <;> simp [hq, hp, eq_comm]
    · intro q; rw [h7 q, GoMap.get?_set]
      by_cases hq : q ∈ order <;> by_cases hp : pos = q <;> simp [hq, hp, eq_comm]
    · intro q; rw [h8 q, GoMap.get?_set]
      by_cases hq : q ∈ order <;> by_cases hp : pos = q <;> simp [hq, hp, eq_comm]
    · intro q; rw [h9 q]; simp only [GoMap.get?_set]
      by_cases hq : q ∈ order <;> by_cases hp : pos = q <;> simp [hq, hp, eq_comm]
    · intro q; rw [h10 q]; simp only [GoMap.get?_set]
      by_cases hq : q ∈ order <;> by_cases hp : pos = q <;> simp [hq, hp, eq_comm]

theorem GoMap.mem_of_get? {K V : Type} [DecidableEq K] (m : GoMap K V) (k : K) (v : V)
    (h : GoMap.get? m k = some v) : (k, v) ∈ m := by
  induction m with
  | nil => simp [GoMap.get?] at h
  | cons e m ih =>
    obtain ⟨k', v'⟩ := e
    by_cases hk : k' = k
    · subst hk
      simp only [GoMap.get?, if_true, Option.some.injEq] at h
      simp [h]
    · simp only [GoMap.get?, hk, if_false] at h
      exact List.mem_cons_of_mem _ (ih h)

theorem isUsable_get? (pos : Pos) : isUsable pos = true ↔ Usable.get? pos = some true := by
  unfold isUsable
  cases h : Usable.get? pos with
  | none => simp
  | some b => cases b <;> simp

theorem Usable_entries :
    ∀ e ∈ Usable, e.2 = true ∧ 0 ≤ e.1.X ∧ e.1.X < 8 ∧ 0 ≤ e.1.Y ∧ e.1.Y < 8 ∧
      (e.1.X + e.1.Y) % 2 = 1 ∧ isUsable e.1 = true := by
  decide

theorem Usable_complete :
    ∀ x ∈ List.range 8, ∀ y ∈ List.range 8, (x + y) % 2 = 1 →
      isUsable ⟨(x : Nat), (y : Nat)⟩ = true := by
  decide

theorem isUsable_iff (pos : Pos) :
    isUsable pos = true ↔
      0 ≤ pos.X ∧ pos.X < 8 ∧ 0 ≤ pos.Y ∧ pos.Y < 8 ∧ (pos.X + pos.Y) % 2 = 1 := by
  constructor
  · intro h
    have := Usable_entries _ (GoMap.mem_of_get? _ _ _ ((isUsable_get? pos).mp h))
    exact ⟨this.2.1, this.2.2.1, this.2.2.2.1, this.2.2.2.2.1, this.2.2.2.2.2.1⟩
  · rintro ⟨hx0, hx8, hy0, hy8, hodd⟩
    obtain ⟨X, Y⟩ := pos
    simp only at hx0 hx8 hy0 hy8 hodd
    obtain ⟨x, rfl⟩ := Int.eq_ofNat_of_zero_le hx0
    obtain ⟨y, rfl⟩ := Int.eq_ofNat_of_zero_le hy0
    exact Usable_complete x (by simp; omega) y (by simp; omega) (by omega)

theorem mem_keys_iff (pos : Pos) : pos ∈ Usable.keys ↔ isUsable pos = true := by
  constructor
  · intro h
    simp only [GoMap.keys, List.mem_map] at h
    obtain ⟨e, he, rfl⟩ := h
    exact (Usable_entries e he).2.2.2.2.2.2
  · intro h
    have := GoMap.mem_of_get? _ _ _ ((isUsable_get? pos).mp h)
    simp only [GoMap.keys, List.mem_map]
    exact ⟨_, this, rfl⟩

theorem initPlayers_get (players : List Player) (t : Tables) :
    (∀ p, (initPlayers players t).Moves.get? p =
      if p ∈ players then some [] else t.Moves.get? p) ∧
    (∀ p, (initPlayers players t).Jumps.get? p =
      if p ∈ players then some [] else t.Jumps.get? p) ∧
    (initPlayers players t).KingMoves = t.KingMoves ∧
    (initPlayers players t).KingJumps = t.KingJumps := by
  induction players generalizing t with
  | nil => simp [initPlayers]
  | cons a players ih =>
    obtain ⟨h1, h2, h3, h4⟩ :=
      ih { t with Moves := t.Moves.set a [], Jumps := t.Jumps.set a [] }
    simp only [initPlayers, List.foldl_cons] at h1 h2 h3 h4 ⊢
    refine ⟨fun p => ?_, fun p => ?_, h3, h4⟩
    · rw [h1 p, GoMap.get?_set]
      by_cases hp : p ∈ players <;> by_cases ha : a = p <;> simp [hp, ha, eq_comm]
    · rw [h2 p, GoMap.get?_set]
      by_cases hp : p ∈ players <;> by_cases ha : a = p <;> simp [hp, ha, eq_comm]

/-- The tables that `init` builds, whatever the order in which the two `range` loops
visit their maps: `init` does not panic, and each inner map is what the two directions
add to an empty map. -/
theorem init_spec (players : List Player) (order : List Pos)
    (hp : players.Perm (Players.map Prod.snd)) (ho : order.Perm Usable.keys) :
    ∃ t, init players order = some t ∧
      (∀ pos, t.movesAt BLACK_PLAYER pos =
        if isUsable pos then some (addMoves 1 pos []) else none) ∧
      (∀ pos, t.movesAt RED_PLAYER pos =
        if isUsable pos then some (addMoves (-1) pos []) else none) ∧
      (∀ pos, t.jumpsAt BLACK_PLAYER pos =
        if isUsable pos then some (addJumps 1 pos []) else none) ∧
      (∀ pos, t.jumpsAt RED_PLAYER pos =
        if isUsable pos then some (addJumps (-1) pos []) else none) ∧
      (∀ pos, t.KingMoves.get? pos =
        if isUsable pos then some (addMoves (-1) pos (addMoves 1 pos [])) else none) ∧
      (∀ pos, t.KingJumps.get? pos =
        if isUsable pos then some (addJumps (-1) pos (addJumps 1 pos [])) else none) := by
  have hB : BLACK_PLAYER ∈ players := hp.mem_iff.mpr (by decide)
  have hR : RED_PLAYER ∈ players := hp.mem_iff.mpr (by decide)
  obtain ⟨g1, g2, g3, g4⟩ := initPlayers_get players Tables.declared
  obtain ⟨t', MB', MR', JB', JR', ht', h1, h2, h3, h4, h5, h6, h7, h8, h9, h10⟩ :=
    foldlM_initPos order (initPlayers players Tables.declared) [] [] [] []
      (by rw [g1, if_pos hB]) (by rw [g1, if_pos hR]) (by rw [g2, if_pos hB])
      (by rw [g2, if_pos hR])
  have hmem : ∀ q, q ∈ order ↔ isUsable q = true := fun q =>
    (ho.mem_iff).trans (mem_keys_iff q)
  refine ⟨t', ht', ?_, ?_, ?_, ?_, ?_, ?_⟩
  · intro pos; simp [Tables.movesAt, h1, h5, hmem, GoMap.get?]
  · intro pos; simp [Tables.movesAt, h2, h6, hmem, GoMap.get?]
  · intro pos; simp [Tables.jumpsAt, h3, h7, hmem, GoMap.get?]
  · intro pos; simp [Tables.jumpsAt, h4, h8, hmem, GoMap.get?]
  · intro pos; rw [h9, g3]; simp [hmem, GoMap.get?, Tables.declared]
  · intro pos; rw [h10, g4]; simp [hmem, GoMap.get?, Tables.declared]

theorem get?_setIfUsable {V : Type} (m : GoMap Pos V) (k k' : Pos) (v : V) :
    (setIfUsable m k v).get? k' =
      if isUsable k = true ∧ k = k' then some v else m.get? k' := by
  unfold setIfUsable
  by_cases h : isUsable k = true
  · simp [h, GoMap.get?_set]
  · simp [h]

theorem Pos_eq_iff (a b : Pos) : a = b ↔ a.X = b.X ∧ a.Y = b.Y := by
  cases a; cases b; simp

theorem addMoves_get? (forward : Int) (pos dest : Pos) :
    (addMoves forward pos []).get? dest =
      if isUsable dest = true ∧ |dest.X - pos.X| = 1 ∧ dest.Y - pos.Y = forward
      then some true else none := by
  simp only [addMoves, get?_setIfUsable, GoMap.get?_nil]
  by_cases hc : isUsable dest = true ∧ |dest.X - pos.X| = 1 ∧ dest.Y - pos.Y = forward
  · rw [if_pos hc]
    obtain ⟨hu, hx, hy⟩ := hc
    rcases (abs_eq (by norm_num : (0 : Int) ≤ 1)).mp hx with h | h
    · have e : (⟨pos.X + 1, pos.Y + forward⟩ : Pos) = dest := by
        rw [Pos_eq_iff]; constructor <;> simp only <;> omega
      rw [← e] at hu
      by_cases h2 : (isUsable ⟨pos.X + -1, pos.Y + forward⟩ = true ∧
          (⟨pos.X + -1, pos.Y + forward⟩ : Pos) = dest)
      · rw [if_pos h2]
      · rw [if_neg h2, if_pos ⟨hu, e⟩]
    · have e : (⟨pos.X + -1, pos.Y + forward⟩ : Pos) = dest := by
        rw [Pos_eq_iff]; constructor <;> simp only <;> omega
      rw [← e] at hu
      rw [if_pos ⟨hu, e⟩]
  · rw [if_neg hc]
    have h2 : ¬ (isUsable ⟨pos.X + -1, pos.Y + forward⟩ = true ∧
        (⟨pos.X + -1, pos.Y + forward⟩ : Pos) = dest) := by
      rintro ⟨hu, e⟩
      apply hc
      rw [← e]
      refine ⟨hu, ?_, by simp⟩
      simp
    have h1 : ¬ (isUsable ⟨pos.X + 1, pos.Y + forward⟩ = true ∧
        (⟨pos.X + 1, pos.Y + forward⟩ : Pos) = dest) := by
      rintro ⟨hu, e⟩
      apply hc
      rw [← e]
      refine ⟨hu, ?_, by simp⟩
      simp
    rw [if_neg h2, if_neg h1]

theorem addJumps_get? (forward : Int) (pos dest : Pos) :
    (addJumps forward pos []).get? dest =
      if isUsable dest = true ∧ |dest.X - pos.X| = 2 ∧ dest.Y - pos.Y = 2 * forward
      then some (Capture pos dest) else none := by
  simp only [addJumps, get?_setIfUsable, GoMap.get?_nil]
  by_cases hc : isUsable dest = true ∧ |dest.X - pos.X| = 2 ∧ dest.Y - pos.Y = 2 * forward
  · rw [if_pos hc]
    obtain ⟨hu, hx, hy⟩ := hc
    rcases (abs_eq (by norm_num : (0 : Int) ≤ 2)).mp hx with h | h
    · have e : (⟨pos.X + 2, pos.Y + 2 * forward⟩ : Pos) = dest := by
        rw [Pos_eq_iff]; constructor <;> simp only <;> omega
      rw [← e] at hu
      by_cases h2 : (isUsable ⟨pos.X + -2, pos.Y + 2 * forward⟩ = true ∧
          (⟨pos.X + -2, pos.Y + 2 * forward⟩ : Pos) = dest)
      · rw [if_pos h2, h2.2]
      · rw [if_neg h2, if_pos ⟨hu, e⟩, e]
    · have e : (⟨pos.X + -2, pos.Y + 2 * forward⟩ : Pos) = dest := by
        rw [Pos_eq_iff]; constructor <;> simp only <;> omega
      rw [← e] at hu
      rw [if_pos ⟨hu, e⟩, e]
  · rw [if_neg hc]
    have h2 : ¬ (isUsable ⟨pos.X + -2, pos.Y + 2 * forward⟩ = true ∧
        (⟨pos.X + -2, pos.Y + 2 * forward⟩ : Pos) = dest) := by
      rintro ⟨hu, e⟩
      apply hc
      rw [← e]
      refine ⟨hu, ?_, by simp⟩
      simp
    have h1 : ¬ (isUsable ⟨pos.X + 2, pos.Y + 2 * forward⟩ = true ∧
        (⟨pos.X + 2, pos.Y + 2 * forward⟩ : Pos) = dest) := by
      rintro ⟨hu, e⟩
      apply hc
      rw [← e]
      refine ⟨hu, ?_, by simp⟩
      simp
    rw [if_neg h2, if_neg h1]

theorem Capture_midpoint (pos dest : Pos) (hp : isUsable pos = true)
    (hd : isUsable dest = true) (hx : |dest.X - pos.X| = 2) (hy : |dest.Y - pos.Y| = 2) :
    Capture pos dest = ⟨(pos.X + dest.X) / 2, (pos.Y + dest.Y) / 2⟩ ∧
      isUsable (Capture pos dest) = true := by
  obtain ⟨p1, p2, p3, p4, p5⟩ := (isUsable_iff pos).mp hp
  obtain ⟨d1, d2, d3, d4, d5⟩ := (isUsable_iff dest).mp hd
  have e : Capture pos dest = ⟨(pos.X + dest.X) / 2, (pos.Y + dest.Y) / 2⟩ := by
    simp only [Capture]
    rw [Int.tdiv_eq_ediv (by omega) (by norm_num), Int.tdiv_eq_ediv (by omega) (by norm_num)]
  refine ⟨e, ?_⟩
  rw [e, isUsable_iff]
  simp only
  rcases (abs_eq (by norm_num : (0 : Int) ≤ 2)).mp hx with h | h <;>
    rcases (abs_eq (by norm_num : (0 : Int) ≤ 2)).mp hy with h' | h' <;>
    refine ⟨?_, ?_, ?_, ?_, ?_⟩ <;> omega

/-- C8. Usable geometry: after the first loop of `init`, the keys of `Usable` are exactly
the positions `(x, y)` with `0 ≤ x, y < 8` and `x + y` odd, each of them maps to `true`,
no key maps to `false`, and `Usable` has exactly 32 members, all distinct. -/
theorem Usable_geometry :
    (∀ pos : Pos, pos ∈ Usable.keys ↔
      0 ≤ pos.X ∧ pos.X < 8 ∧ 0 ≤ pos.Y ∧ pos.Y < 8 ∧ (pos.X + pos.Y) % 2 = 1) ∧
    (∀ pos : Pos, Usable.get? pos = some true ↔
      0 ≤ pos.X ∧ pos.X < 8 ∧ 0 ≤ pos.Y ∧ pos.Y < 8 ∧ (pos.X + pos.Y) % 2 = 1) ∧
    (∀ pos : Pos, Usable.get? pos ≠ some false) ∧
    Usable.length = 32 ∧ Usable.keys.Nodup := by
  refine ⟨fun pos => (mem_keys_iff pos).trans (isUsable_iff pos),
    fun pos => (isUsable_get? pos).symm.trans (isUsable_iff pos), fun pos h => ?_,
    by decide, by decide⟩
  have := (Usable_entries _ (GoMap.mem_of_get? _ _ _ h)).1
  simp at this

/-- C9. The `Moves` table is exactly the forward diagonal steps: whatever the order in
which `init` visits the players and the usable positions, `init` completes, and for every
usable `pos` and every `dest`, `Moves[Black][pos]` holds `dest` if and only if `dest` is
usable, `|dest.X - pos.X| = 1` and `dest.Y - pos.Y = 1`, and `Moves[Red][pos]` holds
`dest` if and only if `dest` is usable, `|dest.X - pos.X| = 1` and
`dest.Y - pos.Y = -1`; every other destination, off the board or on a light square, has
no entry. -/
theorem Moves_forward_steps (players : List Player) (order : List Pos)
    (hp : players.Perm (Players.map Prod.snd)) (ho : order.Perm Usable.keys) :
    ∃ t, init players order = some t ∧ ∀ pos dest : Pos, isUsable pos = true →
      (t.move BLACK_PLAYER pos dest = some true ↔
        isUsable dest = true ∧ |dest.X - pos.X| = 1 ∧ dest.Y - pos.Y = 1) ∧
      (t.move RED_PLAYER pos dest = some true ↔
        isUsable dest = true ∧ |dest.X - pos.X| = 1 ∧ dest.Y - pos.Y = -1) ∧
      (¬ (isUsable dest = true ∧ |dest.X - pos.X| = 1 ∧ dest.Y - pos.Y = 1) →
        t.move BLACK_PLAYER pos dest = none) ∧
      (¬ (isUsable dest = true ∧ |dest.X - pos.X| = 1 ∧ dest.Y - pos.Y = -1) →
        t.move RED_PLAYER pos dest = none) := by
  obtain ⟨t, ht, hB, hR, -, -, -, -⟩ := init_spec players order hp ho
  refine ⟨t, ht, fun pos dest hpos => ?_⟩
  have eB : t.move BLACK_PLAYER pos dest = (addMoves 1 pos []).get? dest := by
    simp [Tables.move, hB, hpos]
  have eR : t.move RED_PLAYER pos dest = (addMoves (-1) pos []).get? dest := by
    simp [Tables.move, hR, hpos]
  rw [eB, eR, addMoves_get?, addMoves_get?]
  refine ⟨?_, ?_, ?_, ?_⟩
  · constructor
    · intro h; by_contra hc; rw [if_neg hc] at h; cases h
    · intro h; rw [if_pos h]
  · constructor
    · intro h; by_contra hc; rw [if_neg hc] at h; cases h
    · intro h; rw [if_pos h]
  · intro h; rw [if_neg h]
  · intro h; rw [if_neg h]

set_option maxRecDepth 100000 in
theorem Moves_forward_steps_witness :
    (Players.map Prod.snd).reverse.Perm (Players.map Prod.snd) ∧
    Usable.keys.reverse.Perm Usable.keys ∧
    (∃ t, init (Players.map Prod.snd).reverse Usable.keys.reverse = some t ∧
      ∀ pos dest : Pos, isUsable pos = true →
      (t.move BLACK_PLAYER pos dest = some true ↔
        isUsable dest = true ∧ |dest.X - pos.X| = 1 ∧ dest.Y - pos.Y = 1) ∧
      (t.move RED_PLAYER pos dest = some true ↔
        isUsable dest = true ∧ |dest.X - pos.X| = 1 ∧ dest.Y - pos.Y = -1) ∧
      (¬ (isUsable dest = true ∧ |dest.X - pos.X| = 1 ∧ dest.Y - pos.Y = 1) →
        t.move BLACK_PLAYER pos dest = none) ∧
      (¬ (isUsable dest = true ∧ |dest.X - pos.X| = 1 ∧ dest.Y - pos.Y = -1) →
        t.move RED_PLAYER pos dest = none)) ∧
    (init (Players.map Prod.snd).reverse Usable.keys.reverse).map
        (fun t => (t.movesAt BLACK_PLAYER ⟨7, 2⟩, t.movesAt RED_PLAYER ⟨2, 1⟩,
          t.movesAt RED_PLAYER ⟨1, 0⟩)) =
      some (some [(⟨6, 3⟩, true)], some [(⟨3, 0⟩, true), (⟨1, 0⟩, true)], some []) :=
  ⟨List.reverse_perm _, List.reverse_perm _,
    Moves_forward_steps _ _ (List.reverse_perm _) (List.reverse_perm _), by rfl⟩

/-- C10. The `Jumps` table and the captured square, with `Capture` the midpoint helper:
whatever the order in which `init` visits the players and the usable positions, `init`
completes, and for every usable `pos` and every `dest`, `Jumps[Black][pos]` has an entry
for `dest` if and only if `dest` is usable, `|dest.X - pos.X| = 2` and
`dest.Y - pos.Y = 2`, and `Jumps[Red][pos]` has one if and only if `dest` is usable,
`|dest.X - pos.X| = 2` and `dest.Y - pos.Y = -2`; the captured position stored in any
such entry is the midpoint `((pos.X + dest.X) / 2, (pos.Y + dest.Y) / 2)` and is itself
usable. -/
theorem Jumps_capture_midpoint (players : List Player) (order : List Pos)
    (hp : players.Perm (Players.map Prod.snd)) (ho : order.Perm Usable.keys) :
    ∃ t, init players order = some t ∧ ∀ pos dest : Pos, isUsable pos = true →
      ((t.jump BLACK_PLAYER pos dest).isSome = true ↔
        isUsable dest = true ∧ |dest.X - pos.X| = 2 ∧ dest.Y - pos.Y = 2) ∧
      ((t.jump RED_PLAYER pos dest).isSome = true ↔
        isUsable dest = true ∧ |dest.X - pos.X| = 2 ∧ dest.Y - pos.Y = -2) ∧
      (∀ p c, (p = BLACK_PLAYER ∨ p = RED_PLAYER) → t.jump p pos dest = some c →
        c = ⟨(pos.X + dest.X) / 2, (pos.Y + dest.Y) / 2⟩ ∧ isUsable c = true) := by
  obtain ⟨t, ht, -, -, hB, hR, -, -⟩ := init_spec players order hp ho
  refine ⟨t, ht, fun pos dest hpos => ?_⟩
  have eB : t.jump BLACK_PLAYER pos dest = (addJumps 1 pos []).get? dest := by
    simp [Tables.jump, hB, hpos]
  have eR : t.jump RED_PLAYER pos dest = (addJumps (-1) pos []).get? dest := by
    simp [Tables.jump, hR, hpos]
  have e1 : (2 : Int) * 1 = 2 := by norm_num
  have e2 : (2 : Int) * -1 = -2 := by norm_num
  rw [eB, eR, addJumps_get?, addJumps_get?, e1, e2]
  refine ⟨?_, ?_, ?_⟩
  · constructor
    · intro h; by_contra hc; rw [if_neg hc] at h; cases h
    · intro h; rw [if_pos h]; rfl
  · constructor
    · intro h; by_contra hc; rw [if_neg hc] at h; cases h
    · intro h; rw [if_pos h]; rfl
  · intro p c hpc hc
    rcases hpc with rfl | rfl
    · rw [eB, addJumps_get?] at hc
      by_cases hcond : isUsable dest = true ∧ |dest.X - pos.X| = 2 ∧ dest.Y - pos.Y = 2 * 1
      · rw [if_pos hcond] at hc
        cases hc
        exact Capture_midpoint pos dest hpos hcond.1 hcond.2.1 (by rw [hcond.2.2]; norm_num)
      · rw [if_neg hcond] at hc; cases hc
    · rw [eR, addJumps_get?] at hc
      by_cases hcond : isUsable dest = true ∧ |dest.X - pos.X| = 2 ∧ dest.Y - pos.Y = 2 * -1
      · rw [if_pos hcond] at hc
        cases hc
        exact Capture_midpoint pos dest hpos hcond.1 hcond.2.1 (by rw [hcond.2.2]; norm_num)
      · rw [if_neg hcond] at hc; cases hc

set_option maxRecDepth 100000 in
theorem Jumps_capture_midpoint_witness :
    (Players.map Prod.snd).Perm (Players.map Prod.snd) ∧
    (Usable.keys.rotate 5).Perm Usable.keys ∧
    (∃ t, init (Players.map Prod.snd) (Usable.keys.rotate 5) = some t ∧
      ∀ pos dest : Pos, isUsable pos = true →
      ((t.jump BLACK_PLAYER pos dest).isSome = true ↔
        isUsable dest = true ∧ |dest.X - pos.X| = 2 ∧ dest.Y - pos.Y = 2) ∧
      ((t.jump RED_PLAYER pos dest).isSome = true ↔
        isUsable dest = true ∧ |dest.X - pos.X| = 2 ∧ dest.Y - pos.Y = -2) ∧
      (∀ p c, (p = BLACK_PLAYER ∨ p = RED_PLAYER) → t.jump p pos dest = some c →
        c = ⟨(pos.X + dest.X) / 2, (pos.Y + dest.Y) / 2⟩ ∧ isUsable c = true)) ∧
    (init (Players.map Prod.snd) (Usable.keys.rotate 5)).map
        (fun t => (t.jumpsAt RED_PLAYER ⟨3, 4⟩, t.jumpsAt BLACK_PLAYER ⟨7, 2⟩,
          t.jumpsAt BLACK_PLAYER ⟨2, 7⟩)) =
      some (some [(⟨5, 2⟩, ⟨4, 3⟩), (⟨1, 2⟩, ⟨2, 3⟩)], some [(⟨5, 4⟩, ⟨6, 3⟩)], some []) :=
  ⟨List.Perm.refl _, List.rotate_perm _ _,
    Jumps_capture_midpoint _ _ (List.Perm.refl _) (List.rotate_perm _ _), by rfl⟩

theorem addMoves_get?_base (forward : Int) (pos dest : Pos) (m : GoMap Pos Bool) :
    (addMoves forward pos m).get? dest =
      if isUsable dest = true ∧ |dest.X - pos.X| = 1 ∧ dest.Y - pos.Y = forward
      then some true else m.get? dest := by
  simp only [addMoves, get?_setIfUsable]
  by_cases hc : isUsable dest = true ∧ |dest.X - pos.X| = 1 ∧ dest.Y - pos.Y = forward
  · rw [if_pos hc]
    obtain ⟨hu, hx, hy⟩ := hc
    rcases (abs_eq (by norm_num : (0 : Int) ≤ 1)).mp hx with h | h
    · have e : (⟨pos.X + 1, pos.Y + forward⟩ : Pos) = dest := by
        rw [Pos_eq_iff]; constructor <;> simp only <;> omega
      rw [← e] at hu
      by_cases h2 : (isUsable ⟨pos.X + -1, pos.Y + forward⟩ = true ∧
          (⟨pos.X + -1, pos.Y + forward⟩ : Pos) = dest)
      · rw [if_pos h2]
      · rw [if_neg h2, if_pos ⟨hu, e⟩]
    · have e : (⟨pos.X + -1, pos.Y + forward⟩ : Pos) = dest := by
        rw [Pos_eq_iff]; constructor <;> simp only <;> omega
      rw [← e] at hu
      rw [if_pos ⟨hu, e⟩]
  · rw [if_neg hc]
    have h2 : ¬ (isUsable ⟨pos.X + -1, pos.Y + forward⟩ = true ∧
        (⟨pos.X + -1, pos.Y + forward⟩ : Pos) = dest) := by
      rintro ⟨hu, e⟩
      apply hc
      rw [← e]
      refine ⟨hu, ?_, by simp⟩
      simp
    have h1 : ¬ (isUsable ⟨pos.X + 1, pos.Y + forward⟩ = true ∧
        (⟨pos.X + 1, pos.Y + forward⟩ : Pos) = dest) := by
      rintro ⟨hu, e⟩
      apply hc
      rw [← e]
      refine ⟨hu, ?_, by simp⟩
      simp
    rw [if_neg h2, if_neg h1]

theorem addJumps_get?_base (forward : Int) (pos dest : Pos) (m : GoMap Pos Pos) :
    (addJumps forward pos m).get? dest =
      if isUsable dest = true ∧ |dest.X - pos.X| = 2 ∧ dest.Y - pos.Y = 2 * forward
      then some (Capture pos dest) else m.get? dest := by
  simp only [addJumps, get?_setIfUsable]
  by_cases hc : isUsable dest = true ∧ |dest.X - pos.X| = 2 ∧ dest.Y - pos.Y = 2 * forward
  · rw [if_pos hc]
    obtain ⟨hu, hx, hy⟩ := hc
    rcases (abs_eq (by norm_num : (0 : Int) ≤ 2)).mp hx with h | h
    · have e : (⟨pos.X + 2, pos.Y + 2 * forward⟩ : Pos) = dest := by
        rw [Pos_eq_iff]; constructor <;> simp only <;> omega
      rw [← e] at hu
      by_cases h2 : (isUsable ⟨pos.X + -2, pos.Y + 2 * forward⟩ = true ∧
          (⟨pos.X + -2, pos.Y + 2 * forward⟩ : Pos) = dest)
      · rw [if_pos h2, h2.2]
      · rw [if_neg h2, if_pos ⟨hu, e⟩, e]
    · have e : (⟨pos.X + -2, pos.Y + 2 * forward⟩ : Pos) = dest := by
        rw [Pos_eq_iff]; constructor <;> simp only <;> omega
      rw [← e] at hu
      rw [if_pos ⟨hu, e⟩, e]
  · rw [if_neg hc]
    have h2 : ¬ (isUsable ⟨pos.X + -2, pos.Y + 2 * forward⟩ = true ∧
        (⟨pos.X + -2, pos.Y + 2 * forward⟩ : Pos) = dest) := by
      rintro ⟨hu, e⟩
      apply hc
      rw [← e]
      refine ⟨hu, ?_, by simp⟩
      simp
    have h1 : ¬ (isUsable ⟨pos.X + 2, pos.Y + 2 * forward⟩ = true ∧
        (⟨pos.X + 2, pos.Y + 2 * forward⟩ : Pos) = dest) := by
      rintro ⟨hu, e⟩
      apply hc
      rw [← e]
      refine ⟨hu, ?_, by simp⟩
      simp
    rw [if_neg h2, if_neg h1]

/-- Every entry of the tables that `init` builds, in closed form, whatever the order in
which the two `range` loops visit their maps. -/
theorem init_lookup (players : List Player) (order : List Pos)
    (hp : players.Perm (Players.map Prod.snd)) (ho : order.Perm Usable.keys) :
    ∃ t, init players order = some t ∧ ∀ pos dest : Pos, isUsable pos = true →
      t.move BLACK_PLAYER pos dest = (if IsStep 1 pos dest then some true else none) ∧
      t.move RED_PLAYER pos dest = (if IsStep (-1) pos dest then some true else none) ∧
      t.jump BLACK_PLAYER pos dest =
        (if IsLeap 1 pos dest then some (Capture pos dest) else none) ∧
      t.jump RED_PLAYER pos dest =
        (if IsLeap (-1) pos dest then some (Capture pos dest) else none) ∧
      t.kingMove pos dest =
        (if IsStep 1 pos dest ∨ IsStep (-1) pos dest then some true else none) ∧
      t.kingJump pos dest =
        (if IsLeap 1 pos dest ∨ IsLeap (-1) pos dest then some (Capture pos dest)
          else none) := by
  obtain ⟨t, ht, hMB, hMR, hJB, hJR, hKM, hKJ⟩ := init_spec players order hp ho
  refine ⟨t, ht, fun pos dest hpos => ⟨?_, ?_, ?_, ?_, ?_, ?_⟩⟩
  · simp only [Tables.move, hMB, hpos, if_true, Option.some_bind, addMoves_get?, IsStep]
  · simp only [Tables.move, hMR, hpos, if_true, Option.some_bind, addMoves_get?, IsStep]
  · simp only [Tables.jump, hJB, hpos, if_true, Option.some_bind, addJumps_get?, IsLeap]
  · simp only [Tables.jump, hJR, hpos, if_true, Option.some_bind, addJumps_get?, IsLeap]
  · simp only [Tables.kingMove, hKM, hpos, if_true, Option.some_bind, addMoves_get?_base,
      addMoves_get?, IsStep]
    by_cases h1 : isUsable dest = true ∧ |dest.X - pos.X| = 1 ∧ dest.Y - pos.Y = 1 <;>
      by_cases h2 : isUsable dest = true ∧ |dest.X - pos.X| = 1 ∧ dest.Y - pos.Y = -1 <;>
      simp [h1, h2, GoMap.get?]
  · simp only [Tables.kingJump, hKJ, hpos, if_true, Option.some_bind, addJumps_get?_base,
      addJumps_get?, IsLeap]
    have e1 : (2 : Int) * 1 = 2 := by norm_num
    have e2 : (2 : Int) * -1 = -2 := by norm_num
    simp only [e1, e2]
    by_cases h1 : isUsable dest = true ∧ |dest.X - pos.X| = 2 ∧ dest.Y - pos.Y = 2 <;>
      by_cases h2 : isUsable dest = true ∧ |dest.X - pos.X| = 2 ∧ dest.Y - pos.Y = -2 <;>
      simp [h1, h2, GoMap.get?]

theorem ite_some_eq_some {α : Type} (c : Prop) [Decidable c] (a b : α) :
    (if c then some a else none) = some b ↔ c ∧ a = b := by
  by_cases h : c <;> simp [h]

theorem Capture_comm (a b : Pos) : Capture a b = Capture b a := by
  simp [Capture, add_comm]

theorem IsStep_reverse (f : Int) (a b : Pos) (ha : isUsable a = true)
    (hb : isUsable b = true) : IsStep f a b ↔ IsStep (-f) b a := by
  simp only [IsStep, ha, hb, true_and, abs_sub_comm b.X a.X]
  constructor <;> rintro ⟨h1, h2⟩ <;> exact ⟨h1, by omega⟩

theorem IsLeap_reverse (f : Int) (a b : Pos) (ha : isUsable a = true)
    (hb : isUsable b = true) : IsLeap f a b ↔ IsLeap (-f) b a := by
  simp only [IsLeap, ha, hb, true_and, abs_sub_comm b.X a.X]
  constructor <;> rintro ⟨h1, h2⟩ <;> exact ⟨h1, by omega⟩

/-- C11. The king tables are the unions of the per-player tables: whatever the order in
which `init` visits the players and the usable positions, for every usable `pos` a
position `dest` is a key of `KingMoves[pos]` if and only if it is a key of
`Moves[Black][pos]` or of `Moves[Red][pos]` (every stored value being `true`), and
`KingJumps[pos]` has the entry `dest -> c` if and only if `Jumps[Black][pos]` or
`Jumps[Red][pos]` has the entry `dest -> c`. -/
theorem King_tables_are_unions (players : List Player) (order : List Pos)
    (hp : players.Perm (Players.map Prod.snd)) (ho : order.Perm Usable.keys) :
    ∃ t, init players order = some t ∧ ∀ pos dest : Pos, isUsable pos = true →
      ((t.kingMove pos dest).isSome = true ↔
        (t.move BLACK_PLAYER pos dest).isSome = true ∨
          (t.move RED_PLAYER pos dest).isSome = true) ∧
      (t.kingMove pos dest = some true ↔
        t.move BLACK_PLAYER pos dest = some true ∨ t.move RED_PLAYER pos dest = some true) ∧
      (∀ c, t.kingJump pos dest = some c ↔
        t.jump BLACK_PLAYER pos dest = some c ∨ t.jump RED_PLAYER pos dest = some c) := by
  obtain ⟨t, ht, h⟩ := init_lookup players order hp ho
  refine ⟨t, ht, fun pos dest hpos => ?_⟩
  obtain ⟨h1, h2, h3, h4, h5, h6⟩ := h pos dest hpos
  rw [h1, h2, h3, h4, h5, h6]
  refine ⟨?_, ?_, fun c => ?_⟩
  · by_cases a : IsStep 1 pos dest <;> by_cases b : IsStep (-1) pos dest <;> simp [a, b]
  · by_cases a : IsStep 1 pos dest <;> by_cases b : IsStep (-1) pos dest <;> simp [a, b]
  · rw [ite_some_eq_some, ite_some_eq_some, ite_some_eq_some]
    tauto

set_option maxRecDepth 100000 in
theorem King_tables_are_unions_witness :
    (Players.map Prod.snd).Perm (Players.map Prod.snd) ∧
    Usable.keys.reverse.Perm Usable.keys ∧
    (∃ t, init (Players.map Prod.snd) Usable.keys.reverse = some t ∧
      ∀ pos dest : Pos, isUsable pos = true →
      ((t.kingMove pos dest).isSome = true ↔
        (t.move BLACK_PLAYER pos dest).isSome = true ∨
          (t.move RED_PLAYER pos dest).isSome = true) ∧
      (t.kingMove pos dest = some true ↔
        t.move BLACK_PLAYER pos dest = some true ∨ t.move RED_PLAYER pos dest = some true) ∧
      (∀ c, t.kingJump pos dest = some c ↔
        t.jump BLACK_PLAYER pos dest = some c ∨ t.jump RED_PLAYER pos dest = some c)) ∧
    (init (Players.map Prod.snd) Usable.keys.reverse).map
        (fun t => (t.KingMoves.get? ⟨0, 7⟩, t.KingJumps.get? ⟨3, 4⟩)) =
      some (some [(⟨1, 6⟩, true)],
        some [(⟨5, 6⟩, ⟨4, 5⟩), (⟨1, 6⟩, ⟨2, 5⟩), (⟨5, 2⟩, ⟨4, 3⟩), (⟨1, 2⟩, ⟨2, 3⟩)]) :=
  ⟨List.Perm.refl _, List.reverse_perm _,
    King_tables_are_unions _ _ (List.Perm.refl _) (List.reverse_perm _), by rfl⟩

/-- C18. Move reversal symmetry between the players: whatever the order in which `init`
visits the players and the usable positions, for all usable `a` and `b`, `b` is in
`Moves[Black][a]` if and only if `a` is in `Moves[Red][b]`; `Jumps[Black][a]` has the
entry `b -> c` if and only if `Jumps[Red][b]` has the entry `a -> c`, the same captured
square; and `KingMoves` and `KingJumps` are symmetric: `b` is in `KingMoves[a]` if and
only if `a` is in `KingMoves[b]`, and `KingJumps[a]` has `b -> c` if and only if
`KingJumps[b]` has `a -> c`. -/
theorem Move_reversal_symmetry (players : List Player) (order : List Pos)
    (hp : players.Perm (Players.map Prod.snd)) (ho : order.Perm Usable.keys) :
    ∃ t, init players order = some t ∧
      ∀ a b : Pos, isUsable a = true → isUsable b = true →
      (t.move BLACK_PLAYER a b = some true ↔ t.move RED_PLAYER b a = some true) ∧
      (∀ c, t.jump BLACK_PLAYER a b = some c ↔ t.jump RED_PLAYER b a = some c) ∧
      (t.kingMove a b = some true ↔ t.kingMove b a = some true) ∧
      (∀ c, t.kingJump a b = some c ↔ t.kingJump b a = some c) := by
  obtain ⟨t, ht, h⟩ := init_lookup players order hp ho
  refine ⟨t, ht, fun a b ha hb => ?_⟩
  obtain ⟨h1, -, h3, -, h5, h6⟩ := h a b ha
  obtain ⟨-, g2, -, g4, g5, g6⟩ := h b a hb
  rw [h1, h3, h5, h6, g2, g4, g5, g6]
  have s1 := IsStep_reverse 1 a b ha hb
  have s2 := IsStep_reverse (-1) a b ha hb
  have l1 := IsLeap_reverse 1 a b ha hb
  have l2 := IsLeap_reverse (-1) a b ha hb
  rw [neg_neg] at s2 l2
  refine ⟨?_, fun c => ?_, ?_, fun c => ?_⟩
  · rw [ite_some_eq_some, ite_some_eq_some, s1]
  · rw [ite_some_eq_some, ite_some_eq_some, l1, Capture_comm a b]
  · rw [ite_some_eq_some, ite_some_eq_some, s1, s2, or_comm]
  · rw [ite_some_eq_some, ite_some_eq_some, l1, l2, Capture_comm a b, or_comm]

theorem Move_reversal_symmetry_witness :
    (Players.map Prod.snd).reverse.Perm (Players.map Prod.snd) ∧
    (Usable.keys.rotate 11).Perm Usable.keys ∧
    (∃ t, init (Players.map Prod.snd).reverse (Usable.keys.rotate 11) = some t ∧
      ∀ a b : Pos, isUsable a = true → isUsable b = true →
      (t.move BLACK_PLAYER a b = some true ↔ t.move RED_PLAYER b a = some true) ∧
      (∀ c, t.jump BLACK_PLAYER a b = some c ↔ t.jump RED_PLAYER b a = some c) ∧
      (t.kingMove a b = some true ↔ t.kingMove b a = some true) ∧
      (∀ c, t.kingJump a b = some c ↔ t.kingJump b a = some c)) :=
  ⟨List.reverse_perm _, List.rotate_perm _ _,
    Move_reversal_symmetry _ _ (List.reverse_perm _) (List.rotate_perm _ _)⟩

theorem isUsable_rot (p : Pos) : isUsable p = true ↔ isUsable (rot p) = true := by
  rw [isUsable_iff, isUsable_iff]
  simp only [rot]
  constructor <;> rintro ⟨h1, h2, h3, h4, h5⟩ <;> refine ⟨?_, ?_, ?_, ?_, ?_⟩ <;> omega

theorem rot_injective (p q : Pos) (h : rot p = rot q) : p = q := by
  rw [Pos_eq_iff] at h ⊢
  simp only [rot] at h
  constructor <;> omega

theorem IsStep_rot (f : Int) (a b : Pos) : IsStep f a b ↔ IsStep (-f) (rot a) (rot b) := by
  have e : |(rot b).X - (rot a).X| = |b.X - a.X| := by
    simp only [rot]
    rw [show (7 - b.X - (7 - a.X) : Int) = -(b.X - a.X) by ring, abs_neg]
  simp only [IsStep, ← isUsable_rot b, e]
  simp only [rot]
  constructor <;> rintro ⟨h1, h2, h3⟩ <;> exact ⟨h1, h2, by omega⟩

theorem IsLeap_rot (f : Int) (a b : Pos) : IsLeap f a b ↔ IsLeap (-f) (rot a) (rot b) := by
  have e : |(rot b).X - (rot a).X| = |b.X - a.X| := by
    simp only [rot]
    rw [show (7 - b.X - (7 - a.X) : Int) = -(b.X - a.X) by ring, abs_neg]
  simp only [IsLeap, ← isUsable_rot b, e]
  simp only [rot]
  constructor <;> rintro ⟨h1, h2, h3⟩ <;> exact ⟨h1, h2, by omega⟩

theorem Capture_rot (a b : Pos) (ha : isUsable a = true) (hb : isUsable b = true)
    (hx : |b.X - a.X| = 2) (hy : |b.Y - a.Y| = 2) :
    Capture (rot a) (rot b) = rot (Capture a b) := by
  obtain ⟨e1, -⟩ := Capture_midpoint a b ha hb hx hy
  have hx' : |(rot b).X - (rot a).X| = 2 := by
    simp only [rot]
    rw [show (7 - b.X - (7 - a.X) : Int) = -(b.X - a.X) by ring, abs_neg]; exact hx
  have hy' : |(rot b).Y - (rot a).Y| = 2 := by
    simp only [rot]
    rw [show (7 - b.Y - (7 - a.Y) : Int) = -(b.Y - a.Y) by ring, abs_neg]; exact hy
  obtain ⟨e2, -⟩ := Capture_midpoint (rot a) (rot b) ((isUsable_rot a).mp ha)
    ((isUsable_rot b).mp hb) hx' hy'
  rw [e1, e2, Pos_eq_iff]
  simp only [rot]
  rcases (abs_eq (by norm_num : (0 : Int) ≤ 2)).mp hx with h | h <;>
    rcases (abs_eq (by norm_num : (0 : Int) ≤ 2)).mp hy with h' | h' <;>
    constructor <;> omega

/-- C19. Half-turn symmetry of the board, with `rot (x, y) = (7 - x, 7 - y)`: a position
is usable if and only if its image under `rot` is, and `rot` carries Black's tables onto
Red's: whatever the order in which `init` visits the players and the usable positions,
for all usable `a` and `b`, `b` is in `Moves[Black][a]` if and only if `rot b` is in
`Moves[Red][rot a]`, and `Jumps[Black][a]` has the entry `b -> c` if and only if
`Jumps[Red][rot a]` has the entry `rot b -> rot c`. -/
theorem Half_turn_symmetry (players : List Player) (order : List Pos)
    (hp : players.Perm (Players.map Prod.snd)) (ho : order.Perm Usable.keys) :
    (∀ p : Pos, isUsable p = true ↔ isUsable (rot p) = true) ∧
    ∃ t, init players order = some t ∧
      ∀ a b : Pos, isUsable a = true → isUsable b = true →
      (t.move BLACK_PLAYER a b = some true ↔
        t.move RED_PLAYER (rot a) (rot b) = some true) ∧
      (∀ c, t.jump BLACK_PLAYER a b = some c ↔
        t.jump RED_PLAYER (rot a) (rot b) = some (rot c)) := by
  refine ⟨isUsable_rot, ?_⟩
  obtain ⟨t, ht, h⟩ := init_lookup players order hp ho
  refine ⟨t, ht, fun a b ha hb => ?_⟩
  obtain ⟨h1, -, h3, -, -, -⟩ := h a b ha
  obtain ⟨-, g2, -, g4, -, -⟩ := h (rot a) (rot b) ((isUsable_rot a).mp ha)
  rw [h1, h3, g2, g4]
  refine ⟨?_, fun c => ?_⟩
  · rw [ite_some_eq_some, ite_some_eq_some, IsStep_rot 1 a b]
  · rw [ite_some_eq_some, ite_some_eq_some, ← IsLeap_rot 1 a b]
    constructor
    · rintro ⟨hl, rfl⟩
      refine ⟨hl, Capture_rot a b ha hb hl.2.1 ?_⟩
      rw [hl.2.2]; norm_num
    · rintro ⟨hl, hc⟩
      refine ⟨hl, ?_⟩
      rw [Capture_rot a b ha hb hl.2.1 (by rw [hl.2.2]; norm_num)] at hc
      exact rot_injective _ _ hc

theorem Half_turn_symmetry_witness :
    (Players.map Prod.snd).Perm (Players.map Prod.snd) ∧
    (Usable.keys.rotate 17).Perm Usable.keys ∧
    ((∀ p : Pos, isUsable p = true ↔ isUsable (rot p) = true) ∧
    ∃ t, init (Players.map Prod.snd) (Usable.keys.rotate 17) = some t ∧
      ∀ a b : Pos, isUsable a = true → isUsable b = true →
      (t.move BLACK_PLAYER a b = some true ↔
        t.move RED_PLAYER (rot a) (rot b) = some true) ∧
      (∀ c, t.jump BLACK_PLAYER a b = some c ↔
        t.jump RED_PLAYER (rot a) (rot b) = some (rot c))) :=
  ⟨List.Perm.refl _, List.rotate_perm _ _,
    Half_turn_symmetry _ _ (List.Perm.refl _) (List.rotate_perm _ _)⟩

/-- C20. A jump is two consecutive forward steps over the captured square: whatever the
order in which `init` visits the players and the usable positions, for each player `p` of
Black and Red and every usable `pos`, if `Jumps[p][pos]` has the entry `dest -> c` then `c`
is in `Moves[p][pos]` and `dest` is in `Moves[p][c]`; conversely, if `c` is in
`Moves[p][pos]`, `dest` is in `Moves[p][c]` and `dest - c = c - pos`, then
`Jumps[p][pos]` has the entry `dest -> c`. -/
theorem Jump_is_two_steps (players : List Player) (order : List Pos)
    (hp : players.Perm (Players.map Prod.snd)) (ho : order.Perm Usable.keys) :
    ∃ t, init players order = some t ∧
      ∀ p, (p = BLACK_PLAYER ∨ p = RED_PLAYER) →
      ∀ pos dest c : Pos, isUsable pos = true →
      (t.jump p pos dest = some c →
        t.move p pos c = some true ∧ t.move p c dest = some true) ∧
      (t.move p pos c = some true → t.move p c dest = some true →
        dest.X - c.X = c.X - pos.X → dest.Y - c.Y = c.Y - pos.Y →
        t.jump p pos dest = some c) := by
  obtain ⟨t, ht, h⟩ := init_lookup players order hp ho
  refine ⟨t, ht, ?_⟩
  have key : ∀ f : Int, (f = 1 ∨ f = -1) → ∀ pos dest c : Pos, isUsable pos = true →
      ((IsLeap f pos dest ∧ Capture pos dest = c) → IsStep f pos c ∧ IsStep f c dest) ∧
      (IsStep f pos c → IsStep f c dest → dest.X - c.X = c.X - pos.X →
        dest.Y - c.Y = c.Y - pos.Y → IsLeap f pos dest ∧ Capture pos dest = c) := by
    intro f hf pos dest c hpos
    constructor
    · rintro ⟨⟨hu, hx, hy⟩, rfl⟩
      have hy' : |dest.Y - pos.Y| = 2 := by
        rcases hf with rfl | rfl <;> rw [hy] <;> norm_num
      obtain ⟨e, hcu⟩ := Capture_midpoint pos dest hpos hu hx hy'
      rw [e] at hcu ⊢
      simp only [IsStep, hcu, hu, true_and]
      rcases (abs_eq (by norm_num : (0 : Int) ≤ 2)).mp hx with h' | h' <;>
        rcases hf with rfl | rfl <;>
        refine ⟨⟨(abs_eq (by norm_num)).mpr ?_, ?_⟩, (abs_eq (by norm_num)).mpr ?_, ?_⟩ <;>
        omega
    · rintro ⟨hcu, hx1, hy1⟩ ⟨hdu, hx2, hy2⟩ ex ey
      have hx : |dest.X - pos.X| = 2 := by
        rcases (abs_eq (by norm_num : (0 : Int) ≤ 1)).mp hx1 with h' | h' <;>
          apply (abs_eq (by norm_num)).mpr <;> omega
      have hy : dest.Y - pos.Y = 2 * f := by omega
      have hy' : |dest.Y - pos.Y| = 2 := by
        rcases hf with rfl | rfl <;> rw [hy] <;> norm_num
      obtain ⟨e, -⟩ := Capture_midpoint pos dest hpos hdu hx hy'
      refine ⟨⟨hdu, hx, hy⟩, ?_⟩
      rw [e, Pos_eq_iff]
      simp only
      constructor <;> omega
  intro p hpl pos dest c hpos
  rcases hpl with rfl | rfl
  · obtain ⟨-, -, h3, -, -, -⟩ := h pos dest hpos
    obtain ⟨h1, -, -, -, -, -⟩ := h pos c hpos
    obtain ⟨k1, k2⟩ := key 1 (Or.inl rfl) pos dest c hpos
    rw [h3, h1, ite_some_eq_some, ite_some_eq_some]
    constructor
    · intro hj
      obtain ⟨s1, s2⟩ := k1 hj
      obtain ⟨g1, -, -, -, -, -⟩ := h c dest s1.1
      rw [g1, ite_some_eq_some]
      exact ⟨⟨s1, rfl⟩, s2, rfl⟩
    · rintro ⟨s1, -⟩ hm ex ey
      obtain ⟨g1, -, -, -, -, -⟩ := h c dest s1.1
      rw [g1, ite_some_eq_some] at hm
      exact k2 s1 hm.1 ex ey
  · obtain ⟨-, -, -, h4, -, -⟩ := h pos dest hpos
    obtain ⟨-, h2, -, -, -, -⟩ := h pos c hpos
    obtain ⟨k1, k2⟩ := key (-1) (Or.inr rfl) pos dest c hpos
    rw [h4, h2, ite_some_eq_some, ite_some_eq_some]
    constructor
    · intro hj
      obtain ⟨s1, s2⟩ := k1 hj
      obtain ⟨-, g2, -, -, -, -⟩ := h c dest s1.1
      rw [g2, ite_some_eq_some]
      exact ⟨⟨s1, rfl⟩, s2, rfl⟩
    · rintro ⟨s1, -⟩ hm ex ey
      obtain ⟨-, g2, -, -, -, -⟩ := h c dest s1.1
      rw [g2, ite_some_eq_some] at hm
      exact k2 s1 hm.1 ex ey

theorem Jump_is_two_steps_witness :
    (Players.map Prod.snd).reverse.Perm (Players.map Prod.snd) ∧
    (Usable.keys.rotate 23).Perm Usable.keys ∧
    (∃ t, init (Players.map Prod.snd).reverse (Usable.keys.rotate 23) = some t ∧
      ∀ p, (p = BLACK_PLAYER ∨ p = RED_PLAYER) →
      ∀ pos dest c : Pos, isUsable pos = true →
      (t.jump p pos dest = some c →
        t.move p pos c = some true ∧ t.move p c dest = some true) ∧
      (t.move p pos c = some true → t.move p c dest = some true →
        dest.X - c.X = c.X - pos.X → dest.Y - c.Y = c.Y - pos.Y →
        t.jump p pos dest = some c)) :=
  ⟨List.reverse_perm _, List.rotate_perm _ _,
    Jump_is_two_steps _ _ (List.reverse_perm _) (List.rotate_perm _ _)⟩

theorem cell_eq_encodePiece (g : Game) (x y : Nat) (p : Piece)
    (h : g.Pieces.get? ⟨x, y⟩ = some p) : g.cell x y = encodePiece p := by
  simp [Game.cell, Game.PieceAt, h, encodePiece]

theorem StringPieces_keys (s : GoString) (p : Piece) (h : StringPieces.get? s = some p) :
    s ∈ fiveSymbols ∧ p ∈ fivePieces := by
  simp only [StringPieces, GoMap.get?] at h
  split at h
  · cases h; subst_vars; exact ⟨by decide, by decide⟩
  · split at h
    · cases h; subst_vars; exact ⟨by decide, by decide⟩
    · split at h
      · cases h; subst_vars; exact ⟨by decide, by decide⟩
      · split at h
        · cases h; subst_vars; exact ⟨by decide, by decide⟩
        · split at h
          · cases h; subst_vars; exact ⟨by decide, by decide⟩
          · cases h

/-- C12. Symbol encoding and decoding are inverse bijections over the five symbols: for
each of the red man, black man, red king, black king and `NO_PIECE`, decoding through
`StringPieces` the symbol that encoding produces (`PieceStrings` of the owner, upper-cased
when `King` is set) yields that piece; for each of the five symbols, encoding the decoded
piece yields the symbol back; the five symbols, and the five pieces, are pairwise
distinct; and `StringPieces` has an entry for no other string. -/
theorem Symbols_bijection :
    (∀ p ∈ fivePieces, StringPieces.get? (encodePiece p) = some p) ∧
    (∀ s ∈ fiveSymbols, ∃ p, StringPieces.get? s = some p ∧ encodePiece p = s) ∧
    fiveSymbols.Nodup ∧ fivePieces.Nodup ∧
    fivePieces.map encodePiece = fiveSymbols ∧
    (∀ s p, StringPieces.get? s = some p → s ∈ fiveSymbols ∧ p ∈ fivePieces) := by
  refine ⟨by decide, ?_, by decide, by decide, by decide, StringPieces_keys⟩
  intro s hs
  simp only [fiveSymbols, List.mem_cons, List.mem_singleton, List.not_mem_nil, or_false] at hs
  rcases hs with rfl | rfl | rfl | rfl | rfl <;> exact ⟨_, rfl, by decide⟩

/-- C13. `Parse` always sets `Turn` to Black: for every string on which `Parse`
succeeds, the returned game's `Turn` is `BLACK_PLAYER`. -/
theorem Parse_turn_black (s : GoString) (g : Game) (h : Parse s = .ok g) :
    g.Turn = BLACK_PLAYER := by
  unfold Parse at h
  split at h
  · cases h
  · split at h
    · cases h
    · cases h; rfl

theorem Parse_turn_black_witness :
    Parse kingBoard = .ok ⟨[(⟨2, 3⟩, ⟨RED_PLAYER, true⟩)], BLACK_PLAYER⟩ ∧
    (Game.mk [(⟨2, 3⟩, ⟨RED_PLAYER, true⟩)] BLACK_PLAYER).Turn = BLACK_PLAYER :=
  ⟨by decide, Parse_turn_black kingBoard _ (by decide)⟩

/-- C14. `Opponents` maps each real player to the other and nothing else:
`Opponents[Black] = Red` and `Opponents[Red] = Black`, so that for each of the two
`Opponents[Opponents[p]] = p` and `Opponents[p] ≠ p`; it has no entry for `NO_PLAYER`,
nor for any player other than Black and Red. -/
theorem Opponents_swap :
    Opponents.get? BLACK_PLAYER = some RED_PLAYER ∧
    Opponents.get? RED_PLAYER = some BLACK_PLAYER ∧
    (∀ p ∈ [BLACK_PLAYER, RED_PLAYER],
      (Opponents.get? p).bind Opponents.get? = some p ∧ Opponents.get? p ≠ some p) ∧
    Opponents.get? NO_PLAYER = none ∧
    (∀ p q, Opponents.get? p = some q →
      (p = BLACK_PLAYER ∧ q = RED_PLAYER) ∨ (p = RED_PLAYER ∧ q = BLACK_PLAYER)) := by
  refine ⟨by decide, by decide, by decide, by decide, fun p q h => ?_⟩
  simp only [Opponents, GoMap.get?] at h
  split at h
  · cases h; subst_vars; exact Or.inl ⟨rfl, rfl⟩
  · split at h
    · cases h; subst_vars; exact Or.inr ⟨rfl, rfl⟩
    · cases h

theorem parseCells_not_outOfBounds (y : Nat) (hy : y < 8) (cs : List Char) (x : Nat)
    (hx : x + cs.length ≤ 8) (pieces : GoMap Pos Piece) (a b : Nat) :
    parseCells y x (explode cs) pieces ≠ .error (.outOfBounds a b) := by
  induction cs generalizing x pieces with
  | nil => simp [explode, parseCells]
  | cons c cs ih =>
    simp only [List.length_cons] at hx
    have hb : ¬ (x ≥ BOARD_DIM ∨ y ≥ BOARD_DIM) := by simp [BOARD_DIM]; omega
    simp only [explode, List.map_cons, parseCells, hb, if_false]
    cases hp : ParsePiece (String.singleton c) with
    | none => simp
    | some piece =>
      simp only
      split
      · exact ih (x + 1) (by omega) _
      · exact ih (x + 1) (by omega) _

theorem parseRows_not_outOfBounds (rows : List (List Char)) (y : Nat)
    (hrows : ∀ j r, rows[j]? = some r → (y + j < 8 → r.length ≤ 8) ∧ (8 ≤ y + j → r = []))
    (pieces : GoMap Pos Piece) (a b : Nat) :
    parseRows y rows pieces ≠ .error (.outOfBounds a b) := by
  induction rows generalizing y pieces with
  | nil => simp [parseRows]
  | cons r rows ih =>
    have h0 := hrows 0 r (by simp)
    simp only [Nat.add_zero] at h0
    have hrest : ∀ j q, rows[j]? = some q →
        (y + 1 + j < 8 → q.length ≤ 8) ∧ (8 ≤ y + 1 + j → q = []) := by
      intro j q hq
      have := hrows (j + 1) q (by simpa using hq)
      have e : y + (j + 1) = y + 1 + j := by omega
      rwa [e] at this
    simp only [parseRows]
    by_cases hy : y < 8
    · have hne := parseCells_not_outOfBounds y hy r 0 (by have := h0.1 hy; omega) pieces a b
      cases hp : parseCells y 0 (explode r) pieces with
      | error e =>
        simp only
        intro h
        apply hne
        rw [hp, h]
      | ok pieces' => exact ih (y + 1) hrest pieces'
    · have hr : r = [] := h0.2 (by omega)
      subst hr
      simp only [explode, List.map_nil, parseCells]
      exact ih (y + 1) hrest pieces

/-- C15, as stated, fails: the string of eight separators and 63 symbols has length 71,
its split on the row separator is eight empty rows and a row of 63 characters, and `Parse`
returns the out-of-bounds error for it at column 0 of row 8, before any symbol is decoded;
likewise the string of 71 empty-square symbols has length 71, splits into one row of 71
characters, and gets the out-of-bounds error at column 8 of row 0. -/
theorem Parse_outOfBounds_reachable :
    len lateRowBoard = 71 ∧
    Split lateRowBoard.data ROW_SEP =
      [[], [], [], [], [], [], [], [], List.replicate 63 '*'] ∧
    Parse lateRowBoard = .error (.outOfBounds 0 8) ∧
    len stars71 = 71 ∧ Split stars71.data ROW_SEP = [List.replicate 71 '*'] ∧
    Parse stars71 = .error (.outOfBounds 8 0) := by
  decide

/-- C15, amended. For every string whose split on the row separator has no row longer
than 8 characters among its first eight rows and only empty rows after them (in
particular whenever the split is exactly 8 rows of 8 characters), `Parse` never returns
the out-of-bounds error; a length of 71 alone does not make the check unreachable. -/
theorem Parse_never_outOfBounds (s : GoString)
    (h : ∀ y r, (Split s.data ROW_SEP)[y]? = some r →
      (y < 8 → r.length ≤ 8) ∧ (8 ≤ y → r = [])) :
    ∀ x y, Parse s ≠ .error (.outOfBounds x y) := by
  intro x y
  unfold Parse
  split
  · simp
  · have hne := parseRows_not_outOfBounds (Split s.data ROW_SEP) 0
      (fun j r hr => by simpa using h j r hr) [] x y
    cases hp : parseRows 0 (Split s.data ROW_SEP) [] with
    | error e =>
      simp only
      intro he
      apply hne
      rw [hp]
      cases he
      rfl
    | ok pieces => simp

theorem Parse_never_outOfBounds_witness :
    len qBoard = 71 ∧
    (∀ y r, (Split qBoard.data ROW_SEP)[y]? = some r →
      (y < 8 → r.length ≤ 8) ∧ (8 ≤ y → r = [])) ∧
    (∀ x y, Parse qBoard ≠ .error (.outOfBounds x y)) ∧
    Parse qBoard = .error (.invalidPiece 2 3) := by
  have hrows : ∀ y r, (Split qBoard.data ROW_SEP)[y]? = some r →
      (y < 8 → r.length ≤ 8) ∧ (8 ≤ y → r = []) := by
    have hs : Split qBoard.data ROW_SEP =
        ["********".data, "********".data, "********".data, "**q*****".data,
         "********".data, "********".data, "********".data, "********".data] := by decide
    intro y r hr
    rw [hs] at hr
    have hy : y < 8 := by
      by_contra hc
      rw [List.getElem?_eq_none (by simp; omega)] at hr
      cases hr
    refine ⟨fun _ => ?_, fun h8 => absurd hy (by omega)⟩
    interval_cases y <;> simp at hr <;> subst hr <;> decide
  exact ⟨by decide, hrows, Parse_never_outOfBounds qBoard hrows, by decide⟩

theorem ParsePiece_star : ParsePiece (String.singleton '*') = some NO_PIECE := by decide

theorem parseCells_entries (y : Nat) (cs : List Char) (x : Nat) (m m' : GoMap Pos Piece)
    (h : parseCells y x (explode cs) m = .ok m') (pos : Pos) (p : Piece)
    (hp : m'.get? pos = some p) :
    m.get? pos = some p ∨
      ∃ i c, cs[i]? = some c ∧ c ≠ '*' ∧ pos = ⟨((x + i : Nat) : Int), (y : Int)⟩ ∧
        x + i < 8 ∧ y < 8 := by
  induction cs generalizing x m with
  | nil =>
    simp only [explode, List.map_nil, parseCells, Except.ok.injEq] at h
    subst h
    exact Or.inl hp
  | cons c cs ih =>
    simp only [explode, List.map_cons, parseCells] at h
    split at h
    · cases h
    · rename_i hb
      have hx : x < 8 ∧ y < 8 := by simp [BOARD_DIM] at hb; omega
      cases hpp : ParsePiece (String.singleton c) with
      | none => rw [hpp] at h; cases h
      | some piece =>
        rw [hpp] at h
        simp only at h
        have shift : (∃ i d, cs[i]? = some d ∧ d ≠ '*' ∧
            pos = ⟨((x + 1 + i : Nat) : Int), (y : Int)⟩ ∧ x + 1 + i < 8 ∧ y < 8) →
            ∃ i d, (c :: cs)[i]? = some d ∧ d ≠ '*' ∧
              pos = ⟨((x + i : Nat) : Int), (y : Int)⟩ ∧ x + i < 8 ∧ y < 8 := by
          rintro ⟨i, d, h1, h2, h3, h4, h5⟩
          refine ⟨i + 1, d, by simpa using h1, h2, ?_, by omega, h5⟩
          rw [h3]
          have e : x + 1 + i = x + (i + 1) := by omega
          rw [e]
        split at h
        · rename_i hne
          rcases ih (x + 1) _ h with h' | h'
          · rw [GoMap.get?_set] at h'
            split at h'
            · rename_i hpos
              right
              refine ⟨0, c, by simp, ?_, by simpa using hpos.symm, by omega, hx.2⟩
              intro hc
              subst hc
              rw [ParsePiece_star] at hpp
              cases hpp
              exact hne rfl
            · exact Or.inl h'
          · exact Or.inr (shift h')
        · rcases ih (x + 1) _ h with h' | h'
          · exact Or.inl h'
          · exact Or.inr (shift h')

theorem parseRows_entries (rows : List (List Char)) (y : Nat) (m m' : GoMap Pos Piece)
    (h : parseRows y rows m = .ok m') (pos : Pos) (p : Piece)
    (hp : m'.get? pos = some p) :
    m.get? pos = some p ∨
      ∃ j r i c, rows[j]? = some r ∧ r[i]? = some c ∧ c ≠ '*' ∧
        pos = ⟨((i : Nat) : Int), ((y + j : Nat) : Int)⟩ ∧ i < 8 ∧ y + j < 8 := by
  induction rows generalizing y m with
  | nil =>
    simp only [parseRows, Except.ok.injEq] at h
    subst h
    exact Or.inl hp
  | cons r rows ih =>
    simp only [parseRows] at h
    cases hc : parseCells y 0 (explode r) m with
    | error e => rw [hc] at h; cases h
    | ok m1 =>
      rw [hc] at h
      simp only at h
      rcases ih (y + 1) m1 h with h' | ⟨j, q, i, c, h1, h2, h3, h4, h5, h6⟩
      · rcases parseCells_entries y r 0 m m1 hc pos p h' with h'' | ⟨i, c, h1, h2, h3, h4, h5⟩
        · exact Or.inl h''
        · right
          refine ⟨0, r, i, c, by simp, h1, h2, ?_, by omega, by omega⟩
          rw [h3]; simp
      · right
        refine ⟨j + 1, q, i, c, by simpa using h1, h2, h3, ?_, h5, by omega⟩
        rw [h4]
        have e : y + 1 + j = y + (j + 1) := by omega
        rw [e]

/-- C16, as stated, fails: `Parse` accepts the well-formed board with a red man in its
top-left corner and stores the piece at `(0, 0)`, which is not a member of `Usable`. -/
theorem Parse_light_square_counterexample :
    Parse lightSquareBoard = .ok ⟨[(⟨0, 0⟩, ⟨RED_PLAYER, false⟩)], BLACK_PLAYER⟩ ∧
    isUsable ⟨0, 0⟩ = false ∧ Usable.get? ⟨0, 0⟩ = none := by
  decide

/-- C16, amended. Pieces occupy only the squares that the string puts them on: for every
string on which `Parse` succeeds, every position with an entry in the returned piece map
is the (column `x`, row `y`) of a symbol other than `*` in the split of the string, with
`x, y < 8`, and it is a member of `Usable` if and only if `x + y` is odd; so every entry
is in `Usable` when the string carries its pieces at odd `x + y` only. -/
theorem Parse_pieces_usable (s : GoString) (g : Game) (h : Parse s = .ok g) :
    (∀ pos p, g.Pieces.get? pos = some p →
      ∃ x y : Nat, x < 8 ∧ y < 8 ∧ pos = ⟨x, y⟩ ∧
        (∃ r c, (Split s.data ROW_SEP)[y]? = some r ∧ r[x]? = some c ∧ c ≠ '*') ∧
        (isUsable pos = true ↔ (x + y) % 2 = 1)) ∧
    ((∀ x y r c, (Split s.data ROW_SEP)[y]? = some r → r[x]? = some c → c ≠ '*' →
        (x + y) % 2 = 1) →
      ∀ pos p, g.Pieces.get? pos = some p → isUsable pos = true) := by
  have main : ∀ pos p, g.Pieces.get? pos = some p →
      ∃ x y : Nat, x < 8 ∧ y < 8 ∧ pos = ⟨x, y⟩ ∧
        (∃ r c, (Split s.data ROW_SEP)[y]? = some r ∧ r[x]? = some c ∧ c ≠ '*') ∧
        (isUsable pos = true ↔ (x + y) % 2 = 1) := by
    intro pos p hp
    unfold Parse at h
    split at h
    · cases h
    · cases hr : parseRows 0 (Split s.data ROW_SEP) [] with
      | error e => rw [hr] at h; cases h
      | ok m =>
        rw [hr] at h
        simp only [Except.ok.injEq] at h
        subst h
        rcases parseRows_entries _ 0 [] m hr pos p hp with h' | ⟨j, r, i, c, h1, h2, h3, h4, h5, h6⟩
        · simp [GoMap.get?] at h'
        · simp only [Nat.zero_add] at h4 h6
          refine ⟨i, j, h5, h6, h4, ⟨r, c, h1, h2, h3⟩, ?_⟩
          rw [h4, isUsable_iff]
          simp only
          constructor
          · rintro ⟨-, -, -, -, hodd⟩; omega
          · intro hodd; refine ⟨?_, ?_, ?_, ?_, ?_⟩ <;> omega
  refine ⟨main, fun hdark pos p hp => ?_⟩
  obtain ⟨x, y, -, -, -, ⟨r, c, h1, h2, h3⟩, hiff⟩ := main pos p hp
  exact hiff.mpr (hdark x y r c h1 h2 h3)

theorem Parse_pieces_usable_witness :
    Parse kingBoard = .ok ⟨[(⟨2, 3⟩, ⟨RED_PLAYER, true⟩)], BLACK_PLAYER⟩ ∧
    ((∀ pos p, (Game.mk [(⟨2, 3⟩, ⟨RED_PLAYER, true⟩)] BLACK_PLAYER).Pieces.get? pos = some p →
      ∃ x y : Nat, x < 8 ∧ y < 8 ∧ pos = ⟨x, y⟩ ∧
        (∃ r c, (Split kingBoard.data ROW_SEP)[y]? = some r ∧ r[x]? = some c ∧ c ≠ '*') ∧
        (isUsable pos = true ↔ (x + y) % 2 = 1)) ∧
    ((∀ x y r c, (Split kingBoard.data ROW_SEP)[y]? = some r → r[x]? = some c → c ≠ '*' →
        (x + y) % 2 = 1) →
      ∀ pos p, (Game.mk [(⟨2, 3⟩, ⟨RED_PLAYER, true⟩)] BLACK_PLAYER).Pieces.get? pos = some p →
        isUsable pos = true)) ∧
    isUsable ⟨2, 3⟩ = true :=
  ⟨by decide, Parse_pieces_usable kingBoard _ (by decide), by decide⟩

theorem entryOf_cellChar (e : Option Piece)
    (h : ∀ p, e = some p → p = ⟨RED_PLAYER, false⟩ ∨ p = ⟨BLACK_PLAYER, false⟩ ∨
      p = ⟨RED_PLAYER, true⟩ ∨ p = ⟨BLACK_PLAYER, true⟩) :
    entryOf (cellChar e) = e := by
  cases e with
  | none => decide
  | some p => rcases h p rfl with rfl | rfl | rfl | rfl <;> decide

/-- C17. String-then-Parse round trip: for every game whose piece map has keys only at
positions with `0 ≤ X, Y < 8` and values only among the red man, black man, red king and
black king, `Parse` succeeds on the output of `String` and returns a game whose piece map
has the same entry as the original at every position; its `Turn` is Black whatever the
original turn was. -/
theorem String_Parse_roundtrip (g : Game)
    (h : ∀ pos p, g.Pieces.get? pos = some p →
      (0 ≤ pos.X ∧ pos.X < 8 ∧ 0 ≤ pos.Y ∧ pos.Y < 8) ∧
      (p = ⟨RED_PLAYER, false⟩ ∨ p = ⟨BLACK_PLAYER, false⟩ ∨
        p = ⟨RED_PLAYER, true⟩ ∨ p = ⟨BLACK_PLAYER, true⟩)) :
    ∃ g', Parse g.String = .ok g' ∧
      (∀ pos, g'.Pieces.get? pos = g.Pieces.get? pos) ∧ g'.Turn = BLACK_PLAYER := by
  have hknown : ∀ x y, x < 8 → y < 8 → KnownOwnerAt g x y := by
    intro x y _ _ p hp
    rcases (h _ p hp).2 with rfl | rfl | rfl | rfl
    · exact Or.inl rfl
    · exact Or.inr (Or.inl rfl)
    · exact Or.inl rfl
    · exact Or.inr (Or.inl rfl)
  have hd := String_data_grid g hknown
  obtain ⟨hlen, hrows⟩ := grid_rows g
  obtain ⟨m, hm, hget⟩ := Parse_of_rows g.String g.grid hlen hrows hd
  refine ⟨⟨m, BLACK_PLAYER⟩, hm, fun pos => ?_, rfl⟩
  show m.get? pos = g.Pieces.get? pos
  by_cases hb : 0 ≤ pos.X ∧ pos.X < 8 ∧ 0 ≤ pos.Y ∧ pos.Y < 8
  · obtain ⟨hx0, hx8, hy0, hy8⟩ := hb
    obtain ⟨X, Y⟩ := pos
    simp only at hx0 hx8 hy0 hy8
    obtain ⟨x, rfl⟩ := Int.eq_ofNat_of_zero_le hx0
    obtain ⟨y, rfl⟩ := Int.eq_ofNat_of_zero_le hy0
    have hx : x < 8 := by omega
    have hy : y < 8 := by omega
    have hent := gridEntry_getElem g.grid 0 y x
    simp only [Nat.zero_add] at hent
    have hgrid := grid_getElem g x y hx hy
    obtain ⟨r, hr⟩ : ∃ r, g.grid[y]? = some r :=
      ⟨g.grid[y], List.getElem?_eq_getElem (by rw [hlen]; exact hy)⟩
    rw [hr] at hent hgrid
    simp only [Option.some_bind] at hent hgrid
    rw [hget, hent, hgrid]
    simp only [Option.some_bind]
    exact entryOf_cellChar _ (fun p hp => (h _ p hp).2)
  · have hnone : g.Pieces.get? pos = none := by
      cases hp : g.Pieces.get? pos with
      | none => rfl
      | some p => exact absurd (h _ p hp).1 hb
    rw [hnone]
    cases hp : m.get? pos with
    | none => rfl
    | some p =>
      exfalso
      apply hb
      obtain ⟨-, x, y, hx, hy, hpos⟩ :=
        knownOwner_of_rows ⟨m, BLACK_PLAYER⟩ g.grid hrows hget pos p hp
      rw [hlen] at hy
      rw [hpos]
      simp only
      omega

set_option maxRecDepth 100000 in
theorem String_Parse_roundtrip_witness :
    (∀ pos p, twoPieceGame.Pieces.get? pos = some p →
      (0 ≤ pos.X ∧ pos.X < 8 ∧ 0 ≤ pos.Y ∧ pos.Y < 8) ∧
      (p = ⟨RED_PLAYER, false⟩ ∨ p = ⟨BLACK_PLAYER, false⟩ ∨
        p = ⟨RED_PLAYER, true⟩ ∨ p = ⟨BLACK_PLAYER, true⟩)) ∧
    (∃ g', Parse twoPieceGame.String = .ok g' ∧
      (∀ pos, g'.Pieces.get? pos = twoPieceGame.Pieces.get? pos) ∧
      g'.Turn = BLACK_PLAYER) ∧
    twoPieceGame.Turn = RED_PLAYER ∧
    Parse twoPieceGame.String =
      .ok ⟨[(⟨1, 0⟩, ⟨BLACK_PLAYER, false⟩), (⟨2, 3⟩, ⟨RED_PLAYER, true⟩)], BLACK_PLAYER⟩ := by
  have hown : ∀ pos p, twoPieceGame.Pieces.get? pos = some p →
      (0 ≤ pos.X ∧ pos.X < 8 ∧ 0 ≤ pos.Y ∧ pos.Y < 8) ∧
      (p = ⟨RED_PLAYER, false⟩ ∨ p = ⟨BLACK_PLAYER, false⟩ ∨
        p = ⟨RED_PLAYER, true⟩ ∨ p = ⟨BLACK_PLAYER, true⟩) := by
    intro pos p hp
    simp only [twoPieceGame, GoMap.get?] at hp
    split at hp
    · rename_i hpos
      cases hp; subst hpos
      exact ⟨by decide, Or.inr (Or.inr (Or.inl rfl))⟩
    · split at hp
      · rename_i hpos
        cases hp; subst hpos
        exact ⟨by decide, Or.inr (Or.inl rfl)⟩
      · cases hp
  exact ⟨hown, String_Parse_roundtrip twoPieceGame hown, rfl, by decide⟩

end Checkers
